import Mathlib

/-
Verification of the asset acquisition / installation engine of the
`rusty_rebase` repository.  The Rust sources are shallowly embedded:

* Rust `String`/`&str` values are modelled as `List Char` (named `Str`),
  so that every string operation reduces in the kernel.
* Network fetches, regex evaluation, sub-process stdout parsing and the
  SHA-256 function are external to the program logic; they are passed in
  as explicit oracle functions.  The data flow around them is embedded
  faithfully from the source.
* Side effects (file writes, directory creation, process spawns, network
  requests) are reified as an `Effect` trace; channel messages sent by
  the worker are reified as a `Msg` trace.
* Machine integers hold only small values here (scores up to 150,
  byte counters) and are modelled as `Int` / `Nat`.
-/

/-- Strings are modelled as lists of characters. -/
abbrev Str : Type := List Char

/-- Rust `str::contains` helper: does `pat` occur inside the scanned list? -/
def strContainsAux (pat : Str) : Str → Bool
  | [] => pat.isEmpty
  | c :: rest => pat.isPrefixOf (c :: rest) || strContainsAux pat rest

/-- Rust `s.contains(pat)`. -/
def strContains (s pat : Str) : Bool := strContainsAux pat s

/-- Rust `s.ends_with(suffix)`. -/
def strEndsWith (s suffix : Str) : Bool := suffix.isSuffixOf s

/-- Number of (possibly overlapping) occurrence positions of `pat` in the
scanned list; used to state the "appears exactly once" property. -/
def countInfixAux (pat : Str) : Str → Nat
  | [] => if pat.isEmpty then 1 else 0
  | c :: rest => (if pat.isPrefixOf (c :: rest) then 1 else 0) + countInfixAux pat rest

/-- Occurrence count of `pat` inside `s`. -/
def countInfix (s pat : Str) : Nat := countInfixAux pat s

/-- Rust `s.split(c)`: always returns at least one (possibly empty) segment. -/
def splitOnChar (c : Char) : Str → List Str
  | [] => [[]]
  | x :: rest =>
    let r := splitOnChar c rest
    if x = c then [] :: r
    else
      match r with
      | [] => [[x]]
      | s :: ss => (x :: s) :: ss

/-- Rust `s.split(sep).last()` / `s.rsplit(sep).next()`: the final segment.
Both always produce at least one segment, so the `unwrap_or` defaults in the
source are unreachable and the default argument here is never used. -/
def lastSegment (s : Str) : Str := (splitOnChar '/' s).getLastD []

/-- Fuel-driven worker for `replaceAll`; the fuel `s.length` suffices because
every iteration consumes at least one character of the scanned list. -/
def replaceAllAux (pat rep : Str) : Nat → Str → Str
  | _, [] => []
  | 0, s => s
  | Nat.succ fuel, c :: rest =>
    if !pat.isEmpty && pat.isPrefixOf (c :: rest) then
      rep ++ replaceAllAux pat rep fuel (List.drop pat.length (c :: rest))
    else
      c :: replaceAllAux pat rep fuel rest

/-- Rust `s.replace(pat, rep)` for a non-empty pattern. -/
def replaceAll (s pat rep : Str) : Str := replaceAllAux pat rep s.length s

/-- Fuel-driven worker for `trimStartMatches`. -/
def trimStartMatchesAux (pat : Str) : Nat → Str → Str
  | 0, s => s
  | Nat.succ fuel, s =>
    if !pat.isEmpty && pat.isPrefixOf s then
      trimStartMatchesAux pat fuel (List.drop pat.length s)
    else s

/-- Rust `s.trim_start_matches(pat)`: repeatedly strips the prefix. -/
def trimStartMatches (s pat : Str) : Str := trimStartMatchesAux pat s.length s

/-- Fuel-driven worker for `trimEndMatches`. -/
def trimEndMatchesAux (pat : Str) : Nat → Str → Str
  | 0, s => s
  | Nat.succ fuel, s =>
    if !pat.isEmpty && pat.isSuffixOf s then
      trimEndMatchesAux pat fuel (List.take (s.length - pat.length) s)
    else s

/-- Rust `s.trim_end_matches(pat)`: repeatedly strips the suffix. -/
def trimEndMatches (s pat : Str) : Str := trimEndMatchesAux pat s.length s

/-- Rust `s.trim_start_matches('v')` as used on GitHub tags: drops every
leading `'v'` character. -/
def trimLeadingVs : Str → Str
  | [] => []
  | c :: rest => if c = 'v' then trimLeadingVs rest else c :: rest

/-- Rust `Vec::join(" ")`. -/
def joinSpace : List Str → Str
  | [] => []
  | [s] => s
  | s :: rest => s ++ " ".data ++ joinSpace rest

/-- Decimal rendering of a natural number (display formatting only). -/
def natToStr (n : Nat) : Str := Nat.toDigits 10 n

/-- Decimal rendering of an integer (display formatting only). -/
def intToStr (i : Int) : Str :=
  if i < 0 then '-' :: natToStr i.natAbs else natToStr i.natAbs

/-- `PathBuf::join` modelled on strings. -/
def pathJoin (a b : Str) : Str := a ++ "/".data ++ b

/- ===================== Data model (src/catalog.rs, src/distro.rs) ===================== -/

/-- Host package manager kind (src/distro.rs). -/
inductive PackageManager where
  | apt
  | dnf
  | pacman
  | unknown
deriving DecidableEq, Repr

/-- Host distribution descriptor (src/distro.rs). -/
structure DistroInfo where
  id : Str
  pkg_manager : PackageManager
deriving DecidableEq, Repr

/-- Setup step tagged union (src/catalog.rs). -/
inductive SetupStep where
  | package (packages : List Str)
  | pathHint (value : Str)
  | note (value : Str)
  | shell (command : Str)
deriving DecidableEq, Repr

/-- Source tagged union (src/catalog.rs). -/
inductive SourceSpec where
  | officialSource (id url version_regex download_url_regex : Option Str)
  | packageManager
  | github (repo : Option Str) (asset_pattern : Str)
deriving DecidableEq, Repr

/-- Software specification (src/catalog.rs). -/
structure SoftwareSpec where
  display_name : Str
  description : Option Str
  enabled_by_default : Bool
  install_dir : Option Str
  source : SourceSpec
  setup_steps : List SetupStep
deriving DecidableEq, Repr

/-- Result of a successful resolution (src/resolver.rs). -/
structure ResolvedAsset where
  version : Str
  url : Str
  file_name : Str
deriving DecidableEq, Repr

/-- One release asset from the GitHub API (src/resolver.rs). -/
structure GitHubAsset where
  name : Str
  browser_download_url : Str
deriving DecidableEq, Repr

/-- Latest-release payload from the GitHub API (src/resolver.rs). -/
structure GitHubRelease where
  tag_name : Str
  assets : List GitHubAsset
deriving DecidableEq, Repr

/-- One entry of the flutter release manifest (src/resolver.rs). -/
structure FlutterRelease where
  hash : Str
  version : Str
  archive : Str
deriving DecidableEq, Repr

/-- Flutter release manifest; the `current_release` hash map is modelled as
an association list. -/
structure FlutterReleases where
  current_release : List (Str × Str)
  releases : List FlutterRelease
deriving DecidableEq, Repr

/-- Reified side effects of the pipeline.  Log capture (appending to the
install log file) is deliberately not an effect: the specification excludes
it from the frame conditions. -/
inductive Effect where
  | netGet (url : Str)
  | spawn (cmd : Str)
  | fsWrite (path : Str)
  | ensureDir (path : Str)
deriving DecidableEq, Repr

deriving instance DecidableEq for Except

/-- Channel messages worker → caller (src/app/state.rs `InstallMsg`).  The
`SubProgress` ratio is an `f64` in the source; it is modelled as an exact
rational. -/
inductive Msg where
  | progress (key op : Str) (speed : Option Str)
  | subProgress (ratio : ℚ)
  | log (line : Str)
  | done (key : Str) (result : Except Str (List Str))
  | finished
deriving DecidableEq

/- ===================== Resolver (src/resolver.rs) ===================== -/

/-- Oracle for the `regex` crate: compilation success, whole-pattern match,
leftmost find, and the first capture group of `captures`. -/
structure RegexOracle where
  compiles : Str → Bool
  isMatch : Str → Str → Bool
  findFirst : Str → Str → Option Str
  captureFirst : Str → Str → Option Str

/-- Oracle for everything external to the resolver: HTTP fetches, JSON
decoding and the host package-manager query stdout parsing. -/
structure ResolverOracle where
  regex : RegexOracle
  httpText : Str → Except Str Str
  flutter : Except Str FlutterReleases
  githubRelease : Str → Except Str GitHubRelease
  vscodeFinalUrl : Str → Except Str Str
  urlJoin : Str → Str → Option Str
  pkgVersion : PackageManager → Str → Option Str

/-- Host package extension preferred by the scoring function
(src/resolver.rs lines 279-283). -/
def preferred_ext (pm : PackageManager) : Str :=
  match pm with
  | .apt => ".deb".data
  | .dnf => ".rpm".data
  | _ => "___".data

/-- Arch keyword test of the scoring closure (src/resolver.rs lines 290-296);
`name_lower` is the lowercased asset name. -/
def hasArchKeyword (sys_arch name_lower : Str) : Bool :=
  if sys_arch = "x86_64".data then
    strContains name_lower "x86_64".data || strContains name_lower "x86-64".data ||
      strContains name_lower "amd64".data || strContains name_lower "x64".data
  else if sys_arch = "aarch64".data then
    strContains name_lower "aarch64".data || strContains name_lower "arm64".data ||
      strContains name_lower "arm-64".data
  else if sys_arch = "arm".data then
    strContains name_lower "armv7".data || strContains name_lower "armhf".data ||
      (strContains name_lower "arm".data && !strContains name_lower "64".data)
  else if sys_arch = "x86".data then
    strContains name_lower "i386".data || strContains name_lower "x86".data ||
      strContains name_lower "386".data
  else false

/-- The asset scoring closure of `resolve_github` (src/resolver.rs lines
285-306).  Scores fit far inside `i32`, so `Int` is exact. -/
def githubScore (sys_arch : Str) (pm : PackageManager) (name : Str) : Int :=
  let name_lower := name.map Char.toLower
  let archScore : Int := if hasArchKeyword sys_arch name_lower then 100 else 0
  let extScore : Int :=
    if strEndsWith name (preferred_ext pm) then 50
    else if strEndsWith name ".deb".data || strEndsWith name ".rpm".data then 20
    else if strEndsWith name ".AppImage".data then 10
    else if strEndsWith name ".tar.gz".data || strEndsWith name ".tar.xz".data ||
        strEndsWith name ".zip".data then 5
    else 0
  archScore + extScore

/-- Stable insertion used to model Rust's stable `sort_by_key` under a
`Reverse` key: the inserted element `x` (coming from an earlier position)
moves past `y` only when `y`'s key is strictly greater. -/
def insertDescBy (key : α → Int) (x : α) : List α → List α
  | [] => [x]
  | y :: ys => if key y > key x then y :: insertDescBy key x ys else x :: y :: ys

/-- Stable sort, descending by `key`.  A stable sorted permutation is unique,
so this function agrees with Rust's `sort_by_key(|a| Reverse(key a))`. -/
def sortDescBy (key : α → Int) : List α → List α
  | [] => []
  | x :: xs => insertDescBy key x (sortDescBy key xs)

/-- First element attaining the maximal key (used to characterise the head
of the stable descending sort). -/
def pickFirstMax (key : α → Int) : List α → Option α
  | [] => none
  | x :: xs =>
    match pickFirstMax key xs with
    | none => some x
    | some y => if key y > key x then some y else some x

/-- Embeds `resolve_github` (src/resolver.rs lines 256-316).  Matching the
sorted list against `[]` coincides with the source's emptiness check on
`matched` before sorting because sorting preserves emptiness. -/
def resolve_github (o : ResolverOracle) (sys_arch : Str) (repo_opt : Option Str)
    (asset_pattern : Str) (distro : DistroInfo) :
    List Effect × Except Str ResolvedAsset :=
  match repo_opt with
  | none => ([], .error "github repo not configured for this software".data)
  | some repo =>
    let api_url := "https://api.github.com/repos/".data ++ repo ++ "/releases/latest".data
    ([.netGet api_url],
      match o.githubRelease api_url with
      | .error e => .error ("failed to fetch latest release: ".data ++ e)
      | .ok release =>
        if !o.regex.compiles asset_pattern then
          .error "invalid asset pattern regex".data
        else
          let matched := release.assets.filter (fun a => o.regex.isMatch asset_pattern a.name)
          match sortDescBy (fun a => githubScore sys_arch distro.pkg_manager a.name) matched with
          | [] => .error ("no asset matching pattern found in github:".data ++ repo)
          | asset :: _ =>
            .ok { version := trimLeadingVs release.tag_name
                  url := asset.browser_download_url
                  file_name := asset.name })

/-- Flutter releases endpoint (src/resolver.rs line 64). -/
def flutterEndpoint : Str :=
  "https://storage.googleapis.com/flutter_infra_release/releases/releases_linux.json".data

/-- Embeds `resolve_flutter` with channel `"stable"` (src/resolver.rs lines
63-96); the HTTP fetch plus JSON decode is the `flutter` oracle field. -/
def resolve_flutter (o : ResolverOracle) : List Effect × Except Str ResolvedAsset :=
  ([.netGet flutterEndpoint],
    match o.flutter with
    | .error e => .error ("failed to fetch flutter releases: ".data ++ e)
    | .ok payload =>
      match (payload.current_release.find? (fun p => p.1 = "stable".data)).map Prod.snd with
      | none => .error "missing current release hash for channel 'stable'".data
      | some hash =>
        match payload.releases.find? (fun it => it.hash = hash) with
        | none => .error "failed to resolve flutter release by hash".data
        | some release =>
          .ok { version := release.version
                url := "https://storage.googleapis.com/flutter_infra_release/releases/".data
                  ++ release.archive
                file_name := lastSegment release.archive })

/-- The two android studio URL patterns (src/resolver.rs lines 106-109). -/
def androidPatterns : List Str :=
  ["https://redirector\\.gvt1\\.com/edgedl/android/studio/ide-zips/[^\"']+linux\\.tar\\.gz".data,
   "https://[^\\s\"']+android-studio-[^\\s\"']+linux\\.tar\\.gz".data]

/-- Version extracted from an android studio tarball file name
(src/resolver.rs lines 124-127). -/
def androidVersionOf (file_name : Str) : Str :=
  trimEndMatches (trimStartMatches file_name "android-studio-".data) "-linux.tar.gz".data

/-- Pattern loop of `resolve_android_studio` (src/resolver.rs lines
111-135).  `rsplit('/').next()` always yields a segment, so the
`invalid android studio url` error branch of the source is unreachable. -/
def androidLoop (o : ResolverOracle) (html : Str) : List Str → Except Str ResolvedAsset
  | [] => .error "could not resolve android studio linux tarball link".data
  | p :: rest =>
    if !o.regex.compiles p then .error "failed to compile android studio regex".data
    else
      match o.regex.findFirst p html with
      | some url =>
        let file_name := lastSegment url
        .ok { version := androidVersionOf file_name, url := url, file_name := file_name }
      | none => androidLoop o html rest

/-- Embeds `resolve_android_studio` (src/resolver.rs lines 98-138). -/
def resolve_android_studio (o : ResolverOracle) : List Effect × Except Str ResolvedAsset :=
  let page := "https://developer.android.com/studio".data
  ([.netGet page],
    match o.httpText page with
    | .error e => .error ("failed to fetch android studio page: ".data ++ e)
    | .ok html => androidLoop o html androidPatterns)

/-- Version pattern used by `resolve_vscode` (src/resolver.rs line 155). -/
def vscodeVersionPattern : Str := "(\\d+\\.\\d+\\.\\d+)".data

/-- Embeds `resolve_vscode` (src/resolver.rs lines 140-165); the redirect
target returned by `send()` is the `vscodeFinalUrl` oracle field. -/
def resolve_vscode (o : ResolverOracle) (distro : DistroInfo) :
    List Effect × Except Str ResolvedAsset :=
  let platform :=
    match distro.pkg_manager with
    | .apt => "linux-deb-x64".data
    | .dnf => "linux-rpm-x64".data
    | _ => "linux-x64".data
  let base_url := "https://update.code.visualstudio.com/latest/".data ++ platform ++ "/stable".data
  ([.netGet base_url],
    match o.vscodeFinalUrl base_url with
    | .error e => .error ("failed to fetch vscode redirect: ".data ++ e)
    | .ok final_url =>
      let file_name := lastSegment final_url
      let version := (o.regex.findFirst vscodeVersionPattern file_name).getD "latest".data
      .ok { version := version, url := final_url, file_name := file_name })

/-- Embeds `resolve_static` (src/resolver.rs lines 167-173). -/
def resolve_static (url file_name : Str) : ResolvedAsset :=
  { version := "static".data, url := url, file_name := file_name }

/-- First package name of the first `Package` setup step that has one
(src/resolver.rs lines 176-182): `find_map` skips `Package` steps whose
package list is empty, exactly like the source's `packages.first()`. -/
def firstPackageName (spec : SoftwareSpec) : Str :=
  (spec.setup_steps.findSome? (fun s =>
    match s with
    | .package packages => packages.head?
    | _ => none)).getD "unknown".data

/-- Shell command spawned by `get_package_version` (src/distro.rs lines
46-91); `Unknown` spawns nothing. -/
def pkgQuerySpawnCmd (pm : PackageManager) (package : Str) : Option Str :=
  match pm with
  | .apt => some ("apt-cache policy ".data ++ package)
  | .dnf => some ("dnf info -q ".data ++ package)
  | .pacman => some ("pacman -Si ".data ++ package)
  | .unknown => none

/-- Embeds `get_package_version` (src/distro.rs lines 46-91) as an effect
trace plus result; parsing of the spawned command's stdout is abstracted
into the `pkgVersion` oracle field. -/
def get_package_version (o : ResolverOracle) (pm : PackageManager) (package : Str) :
    List Effect × Option Str :=
  match pkgQuerySpawnCmd pm package with
  | none => ([], none)
  | some cmd => ([.spawn cmd], o.pkgVersion pm package)

/-- Embeds `resolve_package_only` (src/resolver.rs lines 175-192). -/
def resolve_package_only (o : ResolverOracle) (spec : SoftwareSpec) (distro : DistroInfo) :
    List Effect × Except Str ResolvedAsset :=
  let package_name := firstPackageName spec
  let (fx, vres) := get_package_version o distro.pkg_manager package_name
  (fx, .ok { version := vres.getD "package-manager".data
             url := "N/A".data
             file_name := "N/A".data })

/-- Maps `std::env::consts::ARCH` to the `{arch}` placeholder value
(src/resolver.rs lines 207-212). -/
def archAlias (a : Str) : Str :=
  if a = "x86_64".data then "amd64".data
  else if a = "aarch64".data then "arm64".data
  else if a = "x86".data then "386".data
  else a

/-- Embeds `resolve_generic_scraper` (src/resolver.rs lines 194-254). -/
def resolve_generic_scraper (o : ResolverOracle) (sys_arch url version_regex download_url_regex : Str) :
    List Effect × Except Str ResolvedAsset :=
  ([.netGet url],
    match o.httpText url with
    | .error e => .error ("failed to fetch ".data ++ url ++ ": ".data ++ e)
    | .ok html =>
      let mapped := archAlias sys_arch
      let dash_arch := replaceAll sys_arch "_".data "-".data
      let processed_v_re :=
        replaceAll (replaceAll (replaceAll version_regex "{arch}".data mapped)
          "{xarch}".data sys_arch) "{xarch_dash}".data dash_arch
      let processed_d_re :=
        replaceAll (replaceAll (replaceAll download_url_regex "{arch}".data mapped)
          "{xarch}".data sys_arch) "{xarch_dash}".data dash_arch
      if !o.regex.compiles processed_v_re then .error "invalid version regex".data
      else if !o.regex.compiles processed_d_re then .error "invalid download url regex".data
      else
        match o.regex.captureFirst processed_v_re html with
        | none => .error ("could not find version on ".data ++ url)
        | some version =>
          match o.regex.findFirst processed_d_re html with
          | none => .error ("could not find download url on ".data ++ url)
          | some download_url =>
            let final_url := (o.urlJoin url download_url).getD download_url
            .ok { version := version, url := final_url, file_name := lastSegment final_url })

/-- Embeds the `resolve_asset` dispatch (src/resolver.rs lines 27-48). -/
def resolve_asset (o : ResolverOracle) (sys_arch : Str) (spec : SoftwareSpec)
    (distro : DistroInfo) : List Effect × Except Str ResolvedAsset :=
  match spec.source with
  | .officialSource id url version_regex download_url_regex =>
    if id = some "flutter".data then resolve_flutter o
    else if id = some "android_studio".data then resolve_android_studio o
    else if id = some "vscode".data then resolve_vscode o distro
    else
      match url, version_regex, download_url_regex with
      | some u, some v, some d => resolve_generic_scraper o sys_arch u v d
      | some u, none, none => ([], .ok (resolve_static u "download".data))
      | _, _, _ => ([], .error "official_source missing valid configuration".data)
  | .packageManager => resolve_package_only o spec distro
  | .github repo asset_pattern => resolve_github o sys_arch repo asset_pattern distro

/- ===================== Installer (src/installer.rs, src/distro.rs) ===================== -/

/-- Embeds `PackageManager::install_command` (src/distro.rs lines 33-44);
this function is pure in the source. -/
def install_command (pm : PackageManager) (packages : List Str) : Option Str :=
  if packages.isEmpty then none
  else
    let joined := joinSpace packages
    match pm with
    | .apt => some ("sudo apt update && sudo apt install -y ".data ++ joined)
    | .dnf => some ("sudo dnf install -y ".data ++ joined)
    | .pacman => some ("sudo pacman -Sy --noconfirm ".data ++ joined)
    | .unknown => none

/-- Embeds `expand_tilde` (src/installer.rs lines 22-30). -/
def expand_tilde (home input : Str) : Str :=
  if input = "~".data then home
  else if "~/".data.isPrefixOf input then pathJoin home (input.drop 2)
  else input

/-- Process environment of one install run. -/
structure InstallEnv where
  home : Str
  shellVar : Option Str
  sys_arch : Str

/-- Oracle for the installer's external world: HTTP download responses and
sub-process behaviour.  `chunks url` lists the successive non-zero byte
counts returned by `response.read`; the end of the list is the final
zero-length read.  `runSpawn` yields the streamed output lines and the exit
status of a spawned shell command, or a spawn failure. -/
structure InstallOracle where
  fetch : Str → Except Str Unit
  contentLength : Str → Option Nat
  chunks : Str → List Nat
  runSpawn : Str → Except Str (List Str × Int)

/-- Mutable context threaded through one `install_software` call: the
emitted channel messages, the accumulated `logs` vector, the reified
effects, the pending cancellation signals (each `try_recv` pops one entry;
an empty list means no signal ever arrives), and the current content of the
shell profile file targeted by `PathHint` steps. -/
structure InstState where
  msgs : List Msg
  logs : List Str
  fx : List Effect
  cancel : List Bool
  profile : Str
deriving DecidableEq

/-- Sends a channel message. -/
def pushMsg (st : InstState) (m : Msg) : InstState := { st with msgs := st.msgs ++ [m] }

/-- Pushes onto the `logs` vector only (source sites that skip the channel). -/
def pushLogOnly (st : InstState) (line : Str) : InstState :=
  { st with logs := st.logs ++ [line] }

/-- The `pipe_log` closure (src/installer.rs lines 45-48): channel + vector. -/
def pipeLog (st : InstState) (line : Str) : InstState :=
  { st with msgs := st.msgs ++ [Msg.log line], logs := st.logs ++ [line] }

/-- Records a side effect. -/
def pushFx (st : InstState) (e : Effect) : InstState := { st with fx := st.fx ++ [e] }

/-- Models `cancel_rx.try_recv().is_ok()`. -/
def pollCancel (st : InstState) : Bool × InstState :=
  match st.cancel with
  | [] => (false, st)
  | b :: rest => (b, { st with cancel := rest })

/-- Output streaming loop of `run_piped` (src/installer.rs lines 340-346):
one cancellation poll per received line; `true` means the child was killed. -/
def runPipedLines (st : InstState) : List Str → InstState × Bool
  | [] => (st, false)
  | line :: rest =>
    let (b, st) := pollCancel st
    if b then (st, true)
    else runPipedLines (pushMsg st (.log line)) rest

/-- Embeds `run_piped` (src/installer.rs lines 299-350).  The `spawn` effect
is recorded only when the spawn succeeds. -/
def run_piped (o : InstallOracle) (st : InstState) (cmd : Str) : InstState × Except Str Int :=
  match o.runSpawn cmd with
  | .error e => (st, .error ("failed to spawn command: ".data ++ e))
  | .ok (lines, status) =>
    let st := pushFx st (.spawn cmd)
    match runPipedLines st lines with
    | (st, true) => (st, .error "Operation cancelled by user".data)
    | (st, false) => (st, .ok status)

/-- Placeholder for the `Downloading (x/y MB)` display strings
(src/installer.rs lines 221-225); the floating-point megabyte formatting is
display-only and not modelled. -/
def downloadingText : Str := "Downloading".data

/-- Chunk loop of `download_to_file` (src/installer.rs lines 209-227): poll
cancellation, write the chunk, then emit a `SubProgress` ratio when the
content length is known.  Read errors are not modelled (reads come from the
oracle's chunk list). -/
def downloadChunkLoop (t : Option Nat) (dest : Str) (st : InstState) (downloaded : Nat) :
    List Nat → InstState × Except Str Unit
  | [] =>
    match pollCancel st with
    | (true, st) => (st, .error "Download cancelled by user".data)
    | (false, st) => (st, .ok ())
  | n :: rest =>
    match pollCancel st with
    | (true, st) => (st, .error "Download cancelled by user".data)
    | (false, st) =>
      let st := pushFx st (.fsWrite dest)
      let downloaded := downloaded + n
      match t with
      | some total =>
        let st := pushMsg st (.subProgress ((downloaded : ℚ) / (total : ℚ)))
        let st := pushMsg st (.progress [] downloadingText none)
        downloadChunkLoop t dest st downloaded rest
      | none =>
        let st := pushMsg st (.progress [] downloadingText none)
        downloadChunkLoop t dest st downloaded rest

/-- Embeds `download_to_file` (src/installer.rs lines 190-230); the first
`fsWrite dest` is the `File::create` call. -/
def download_to_file (o : InstallOracle) (st : InstState) (url dest : Str) :
    InstState × Except Str Unit :=
  match o.fetch url with
  | .error e => (st, .error ("failed to download from ".data ++ url ++ ": ".data ++ e))
  | .ok _ =>
    let st := pushFx st (.fsWrite dest)
    downloadChunkLoop (o.contentLength url) dest st 0 (o.chunks url)

/-- Shell detection for `PathHint` (src/installer.rs lines 84-91). -/
def profileNameFor (shell : Str) : Str :=
  if strContains shell "zsh".data then ".zshrc".data
  else if strContains shell "fish".data then ".config/fish/config.fish".data
  else ".bashrc".data

/-- Export line for `PathHint` (src/installer.rs lines 95-99). -/
def exportLineFor (shell rendered : Str) : Str :=
  if strContains shell "fish".data then "fish_add_path ".data ++ rendered
  else "export PATH=\"$PATH:".data ++ rendered ++ "\"".data

/-- Block appended by the `PathHint` `writeln!` call (src/installer.rs line
114): a blank line, a marker comment, the export line, a newline. -/
def pathHintAppendBlock (line : Str) : Str :=
  "\n# Added by rusty_rebase\n".data ++ line ++ "\n".data

/-- Static context of one `install_software` call. -/
structure InstallCtx where
  env : InstallEnv
  o : InstallOracle
  distro : DistroInfo
  spec : SoftwareSpec
  dry_run : Bool

/-- Embeds one iteration body of the setup-step loop
(src/installer.rs lines 62-148), without the cancellation poll. -/
def execStep (ctx : InstallCtx) (st : InstState) : SetupStep → InstState × Except Str Unit
  | .package packages =>
    match install_command ctx.distro.pkg_manager packages with
    | some cmd =>
      if ctx.dry_run then (pipeLog st ("[dry-run] ".data ++ cmd), .ok ())
      else
        let st := pipeLog st ("running: ".data ++ cmd)
        match run_piped ctx.o st cmd with
        | (st, .error e) => (st, .error e)
        | (st, .ok status) =>
          (pipeLog st ("package install exit status: ".data ++ intToStr status), .ok ())
    | none => (pushLogOnly st "package manager unknown, skipped package setup step".data, .ok ())
  | .pathHint value =>
    let install_root :=
      match ctx.spec.install_dir with
      | some dir => expand_tilde ctx.env.home dir
      | none => ctx.env.home
    let rendered := replaceAll value "<install_root>".data install_root
    let shell := ctx.env.shellVar.getD "/bin/bash".data
    let profile_path := pathJoin ctx.env.home (profileNameFor shell)
    let export_line := exportLineFor shell rendered
    if ctx.dry_run then
      (pipeLog st ("[dry-run] append to ".data ++ profile_path ++ ": ".data ++ export_line), .ok ())
    else
      if strContains st.profile export_line then
        (pipeLog st ("path already configured in ".data ++ profile_path), .ok ())
      else
        let st := { st with profile := st.profile ++ pathHintAppendBlock export_line }
        let st := pushFx st (.fsWrite profile_path)
        (pipeLog st ("added ".data ++ rendered ++ " to ".data ++ profile_path), .ok ())
  | .note value => (pushLogOnly st ("note: ".data ++ value), .ok ())
  | .shell command =>
    let processed := replaceAll (replaceAll command "{arch}".data (archAlias ctx.env.sys_arch))
        "{xarch}".data ctx.env.sys_arch
    if ctx.dry_run then (pipeLog st ("[dry-run] shell: ".data ++ processed), .ok ())
    else
      let st := pipeLog st ("running shell: ".data ++ processed)
      match run_piped ctx.o st processed with
      | (st, .error e) => (st, .error e)
      | (st, .ok status) =>
        (pipeLog st ("shell command exit status: ".data ++ intToStr status), .ok ())

/-- The setup-step loop (src/installer.rs lines 58-149): a cancellation poll
before each step, abort on the first error. -/
def runSteps (ctx : InstallCtx) (st : InstState) : List SetupStep → InstState × Except Str Unit
  | [] => (st, .ok ())
  | step :: rest =>
    match pollCancel st with
    | (true, st) => (st, .error "Installation cancelled by user".data)
    | (false, st) =>
      match execStep ctx st step with
      | (st, .error e) => (st, .error e)
      | (st, .ok _) => runSteps ctx st rest

/-- Single-quote character, written via its code point. -/
def singleQuote : Str := [Char.ofNat 39]

/-- Shell quoting as done by `format!("...{}'...")` in the source. -/
def quoted (s : Str) : Str := singleQuote ++ s ++ singleQuote

/-- Shared tail of `extract_archive`: run the command, report its status. -/
def extractVia (o : InstallOracle) (st : InstState) (command : Str) :
    InstState × Except Str Str :=
  match run_piped o st command with
  | (st, .error e) => (st, .error e)
  | (st, .ok status) =>
    (st, .ok ("extraction command exit status ".data ++ intToStr status))

/-- Embeds `extract_archive` (src/installer.rs lines 232-268).  The
`invalid archive file name` branch is unreachable for the slash-joined
paths this model builds, so it is not modelled. -/
def extract_archive (ctx : InstallCtx) (st : InstState) (path install_root : Str) :
    InstState × Except Str Str :=
  let name := lastSegment path
  if ctx.dry_run then
    (st, .ok ("[dry-run] extract ".data ++ path ++ " into ".data ++ install_root))
  else if strEndsWith name ".tar.gz".data then
    extractVia ctx.o st ("tar -xzf ".data ++ quoted path ++ " -C ".data ++ quoted install_root)
  else if strEndsWith name ".tar.xz".data then
    extractVia ctx.o st ("tar -xJf ".data ++ quoted path ++ " -C ".data ++ quoted install_root)
  else if strEndsWith name ".zip".data then
    extractVia ctx.o st ("unzip -o -q ".data ++ quoted path ++ " -d ".data ++ quoted install_root)
  else
    (st, .ok ("downloaded artifact at ".data ++ path ++ ", extraction skipped".data))

/-- Embeds `handle_vscode_install` (src/installer.rs lines 270-297). -/
def handle_vscode_install (ctx : InstallCtx) (st : InstState) (path : Str) :
    InstState × Except Str Str :=
  let cmd : Option Str :=
    match ctx.distro.pkg_manager with
    | .apt => some ("sudo apt install -y ".data ++ quoted path)
    | .dnf => some ("sudo dnf install -y ".data ++ quoted path)
    | .pacman => some ("mkdir -p \"$HOME\"/.local/opt && tar -xzf ".data ++ quoted path
        ++ " -C \"$HOME\"/.local/opt".data)
    | .unknown => none
  match cmd with
  | some cmd =>
    if ctx.dry_run then (st, .ok ("[dry-run] ".data ++ cmd))
    else
      match run_piped ctx.o st cmd with
      | (st, .error e) => (st, .error e)
      | (st, .ok status) => (st, .ok ("vscode install exit status ".data ++ intToStr status))
  | none => (st, .ok "unknown package manager: please install vscode artifact manually".data)

/-- Embeds `install_software` (src/installer.rs lines 33-188). -/
def install_software (ctx : InstallCtx) (name : Str) (resolved : ResolvedAsset)
    (st : InstState) : InstState × Except Str (List Str) :=
  let st := pipeLog st ("== ".data ++ name ++ " (".data ++ ctx.spec.display_name ++ ") ==".data)
  let st := pipeLog st ("resolved version: ".data ++ resolved.version)
  let download_dir := pathJoin ctx.env.home "Downloads/rusty_rebase".data
  let st := if !ctx.dry_run then pushFx st (.ensureDir download_dir) else st
  match runSteps ctx st ctx.spec.setup_steps with
  | (st, .error e) => (st, .error e)
  | (st, .ok _) =>
    if ctx.spec.source ≠ .packageManager then
      let archive_path := pathJoin download_dir resolved.file_name
      let dl : InstState × Except Str Unit :=
        if ctx.dry_run then
          (pipeLog st ("[dry-run] download ".data ++ resolved.url ++ " -> ".data ++ archive_path),
            .ok ())
        else
          let st := pipeLog st ("downloading from ".data ++ resolved.url)
          match download_to_file ctx.o st resolved.url archive_path with
          | (st, .error e) => (st, .error e)
          | (st, .ok _) => (pipeLog st ("downloaded to ".data ++ archive_path), .ok ())
      match dl with
      | (st, .error e) => (st, .error e)
      | (st, .ok _) =>
        let install_root :=
          match ctx.spec.install_dir with
          | some dir => expand_tilde ctx.env.home dir
          | none => ctx.env.home
        let st := if !ctx.dry_run then pushFx st (.ensureDir install_root) else st
        let is_vscode :=
          match ctx.spec.source with
          | .officialSource (some v) _ _ _ => v == "vscode".data
          | _ => false
        match (if is_vscode then handle_vscode_install ctx st archive_path
               else extract_archive ctx st archive_path install_root) with
        | (st, .error e) => (st, .error e)
        | (st, .ok res) =>
          let st := pipeLog st res
          (st, .ok st.logs)
    else
      let st := pushLogOnly st "source is package-only, skipping download/extract".data
      (st, .ok st.logs)

/- ===================== Worker loop (src/app/actions.rs `install_selected`) ===================== -/

/-- The cancellation test of the worker (src/app/actions.rs lines 98-101):
`e.contains("cancelled")`. -/
def isCancelledErr (e : Str) : Bool := strContains e "cancelled".data

/-- Module boundary of the worker thread: catalog lookup, resolution and
installation as seen from the loop in `install_selected`.  Each call yields
the channel messages it sends, its reified effects, and its result. -/
structure WorkerDeps where
  lookupSpec : Str → Option SoftwareSpec
  resolve : SoftwareSpec → List Effect × Except Str ResolvedAsset
  install : Str → SoftwareSpec → ResolvedAsset → List Msg × List Effect × Except Str (List Str)

/-- Tail of one queue-item iteration once a resolved asset is available
(src/app/actions.rs lines 94-107): emit `Installing`, run the install,
emit `Done`, and report whether the loop must break. -/
def installItem (d : WorkerDeps) (key : Str) (spec : SoftwareSpec) (resolved : ResolvedAsset)
    (pre : List Msg) : List Msg × List Effect × Bool :=
  let (ims, ifx, res) := d.install key spec resolved
  let isCanc := match res with | .error e => isCancelledErr e | .ok _ => false
  (pre ++ [Msg.progress key "Installing".data (some "BUSY".data)] ++ ims ++ [Msg.done key res],
    ifx, isCanc)

/-- One full queue-item iteration (src/app/actions.rs lines 69-107). -/
def itemEvents (d : WorkerDeps) (key : Str) (ropt : Option ResolvedAsset) :
    List Msg × List Effect × Bool :=
  let preparing := Msg.progress key "Preparing".data none
  match d.lookupSpec key with
  | none => ([preparing, Msg.done key (.error "Missing spec".data)], [], false)
  | some spec =>
    match ropt with
    | some resolved => installItem d key spec resolved [preparing]
    | none =>
      let resolving := Msg.progress key "Resolving".data none
      match d.resolve spec with
      | (rfx, .error e) =>
        ([preparing, resolving, Msg.done key (.error ("Resolve failed: ".data ++ e))], rfx, false)
      | (rfx, .ok resolved) =>
        let (ms, ifx, brk) := installItem d key spec resolved [preparing, resolving]
        (ms, rfx ++ ifx, brk)

/-- Embeds the worker loop of `install_selected` (src/app/actions.rs lines
68-110): process items in order, break after a `Done` whose error contains
`"cancelled"`, always emit a final `Finished`. -/
def processQueue (d : WorkerDeps) : List (Str × Option ResolvedAsset) → List Msg × List Effect
  | [] => ([Msg.finished], [])
  | (key, ropt) :: rest =>
    match itemEvents d key ropt with
    | (ms, fx, true) => (ms ++ [Msg.finished], fx)
    | (ms, fx, false) =>
      let (ms2, fx2) := processQueue d rest
      (ms ++ ms2, fx ++ fx2)

/-- Static environment closed over by the worker thread of
`install_selected` (src/app/actions.rs lines 63-68): the catalog lookup,
the resolver and installer oracles, the distro and the dry-run flag. -/
structure WorkerEnv where
  env : InstallEnv
  io : InstallOracle
  ro : ResolverOracle
  distro : DistroInfo
  lookup : Str → Option SoftwareSpec
  dry_run : Bool

/-- Tail of one queue-item iteration over the shared worker state
(src/app/actions.rs lines 94-107), running the real `install_software`
embedding: emit `Installing`, run the install on a fresh per-call `logs`
vector (the channel, the effect trace, the cancellation schedule and the
profile file are shared with the rest of the run), emit `Done`, and report
whether the loop must break (`e.contains("cancelled")`). -/
def installItemC (w : WorkerEnv) (st : InstState) (key : Str) (spec : SoftwareSpec)
    (resolved : ResolvedAsset) : InstState × Bool :=
  let st := pushMsg st (.progress key "Installing".data (some "BUSY".data))
  let ctx : InstallCtx :=
    { env := w.env, o := w.io, distro := w.distro, spec := spec, dry_run := w.dry_run }
  match install_software ctx key resolved { st with logs := [] } with
  | (st, res) =>
    (pushMsg st (.done key res),
      match res with | .error e => isCancelledErr e | .ok _ => false)

/-- One full queue-item iteration over the shared worker state
(src/app/actions.rs lines 69-107): `Preparing`, catalog lookup, resolution
when the item arrives unresolved, then the install tail. -/
def itemEventsC (w : WorkerEnv) (st : InstState) (key : Str)
    (ropt : Option ResolvedAsset) : InstState × Bool :=
  let st := pushMsg st (.progress key "Preparing".data none)
  match w.lookup key with
  | none => (pushMsg st (.done key (.error "Missing spec".data)), false)
  | some spec =>
    match ropt with
    | some resolved => installItemC w st key spec resolved
    | none =>
      let st := pushMsg st (.progress key "Resolving".data none)
      match resolve_asset w.ro w.env.sys_arch spec w.distro with
      | (rfx, .error e) =>
        (pushMsg { st with fx := st.fx ++ rfx }
          (.done key (.error ("Resolve failed: ".data ++ e))), false)
      | (rfx, .ok resolved) =>
        installItemC w { st with fx := st.fx ++ rfx } key spec resolved

/-- Worker loop of `install_selected` over the shared state: the single
cancellation schedule in `st.cancel` is threaded through every queue item
and consumed only by the polls inside `install_software`, exactly as
`cancel_rx` is in the source — there is no top-of-item poll.  The loop
breaks after a `Done` whose error contains `"cancelled"` and always emits a
final `Finished`. -/
def processQueueC (w : WorkerEnv) (st : InstState) :
    List (Str × Option ResolvedAsset) → InstState
  | [] => pushMsg st .finished
  | (key, ropt) :: rest =>
    match itemEventsC w st key ropt with
    | (st, true) => pushMsg st .finished
    | (st, false) => processQueueC w st rest

/- ===================== Caller aggregation (src/app/mod.rs `event_loop`) ===================== -/

/-- UI-visible progress counters (src/app/state.rs `ProgressInfo`); the
real-time ETA string is derived from `Instant` clock readings and is not
modelled. -/
structure ProgressInfo where
  operation : Str
  current : Str
  done : Nat
  total : Nat
  succeeded : Nat
  failed : Nat
  skipped : Nat
  speed : Option Str
  sub_ratio : ℚ
  done_items : List Str
deriving DecidableEq

/-- Caller-side state touched while draining installation messages. -/
structure AppAgg where
  logs : List Str
  progress : ProgressInfo
  completed : Bool
deriving DecidableEq

/-- Embeds the message handling of `event_loop` (src/app/mod.rs lines
139-207).  Appending each log line to the install-log file is log capture
and is not reified; the ETA estimate (lines 181-200) reads the wall clock
and is not modelled. -/
def applyMsg (a : AppAgg) (m : Msg) : AppAgg :=
  match m with
  | .progress key op speed =>
    { a with progress := { a.progress with current := key, operation := op, speed := speed } }
  | .subProgress r => { a with progress := { a.progress with sub_ratio := r } }
  | .log line => { a with logs := a.logs ++ [line] }
  | .done key result =>
    let a := { a with progress :=
      { a.progress with done_items := a.progress.done_items ++ [key] } }
    let a :=
      match result with
      | .ok logs =>
        { a with logs := a.logs ++ logs,
                 progress := { a.progress with succeeded := a.progress.succeeded + 1 } }
      | .error err =>
        { a with logs := a.logs ++ [("[error] ".data ++ key ++ " failed: ".data ++ err)],
                 progress := { a.progress with failed := a.progress.failed + 1 } }
    { a with progress := { a.progress with done := a.progress.done + 1, sub_ratio := 0 } }
  | .finished => { a with completed := true }

/-- Draining the channel: fold `applyMsg` over the received messages. -/
def drainMsgs (a : AppAgg) (ms : List Msg) : AppAgg := ms.foldl applyMsg a

/- ===================== Restorer (src/restorer.rs) ===================== -/

/-- One entry of the optional backup integrity index (src/restorer.rs). -/
structure BackupIndexEntry where
  relative_path : Str
  original_size : Nat
  sha256_hash : Str
  zip_file : Option Str
deriving DecidableEq

/-- Backup manifest (src/restorer.rs `BackupInfo`). -/
structure BackupInfo where
  source_path : Str
  backup_time : Str
  zip_files : List Str
  index : Option (List BackupIndexEntry)
deriving DecidableEq

/-- One zip archive entry: its stored name and decompressed bytes. -/
structure ZipEntry where
  name : Str
  content : List Nat
deriving DecidableEq

/-- Models `ZipFile::enclosed_name` from the zip crate's documented
behaviour: `None` for absolute names or names containing a `..` component,
otherwise the name itself as a safe relative path. -/
def enclosed_name (name : Str) : Option Str :=
  if "/".data.isPrefixOf name then none
  else if (splitOnChar '/' name).any (fun comp => comp == "..".data) then none
  else some name

/-- External world of a restore run: the SHA-256 function, the manifest
file (`none` = absent, `error` = unreadable/unparsable) and the zip
archives (`none` = file does not exist, `error` = open/parse failure). -/
structure RestoreOracle where
  hash : List Nat → Str
  infoFile : Option (Except Str BackupInfo)
  zipFs : Str → Option (Except Str (List ZipEntry))
  destExists : Bool

/-- Pre-scan of `restore_backup` (src/restorer.rs lines 52-61): counts every
entry of every archive that opens and parses, including directory entries
and entries that will later be skipped. -/
def totalFileCount (zipFs : Str → Option (Except Str (List ZipEntry))) (zips : List Str) : Nat :=
  (zips.map (fun z => match zipFs z with | some (.ok es) => es.length | _ => 0)).sum

/-- Per-run constants of the restore loop. -/
structure RestoreCtx where
  hash : List Nat → Str
  hasTx : Bool
  dest_dir : Str
  index : Option (List BackupIndexEntry)
  total_files : Nat

/-- Restore-side mutable state: accumulated log lines, channel messages,
effects, and the `restored_count` counter. -/
structure RestState where
  logs : List Str
  msgs : List Msg
  fx : List Effect
  restored_count : Nat
deriving DecidableEq

/-- Sends a `Log` message when a sender is present, then pushes to `logs`
(the `if let Some(s) = tx` + `logs.push` pattern of the source). -/
def rSendLog (ctx : RestoreCtx) (st : RestState) (line : Str) : RestState :=
  let st := if ctx.hasTx then { st with msgs := st.msgs ++ [Msg.log line] } else st
  { st with logs := st.logs ++ [line] }

/-- Sends a channel message when a sender is present. -/
def rSendMsg (ctx : RestoreCtx) (st : RestState) (m : Msg) : RestState :=
  if ctx.hasTx then { st with msgs := st.msgs ++ [m] } else st

/-- Warning line logged on a hash mismatch (src/restorer.rs line 115). -/
def warnLine (rel_path : Str) : Str :=
  "[WARNING] Integrity check FAILED for ".data ++ rel_path

/-- Parent directory of a slash-joined path. -/
def parentDir (p : Str) : Str :=
  ((splitOnChar '/' p).dropLast).foldr
    (fun seg acc => if acc.isEmpty then seg else seg ++ "/".data ++ acc) []

/-- Embeds one zip-entry iteration of `restore_backup` (src/restorer.rs
lines 85-127): entries whose `enclosed_name` is `None` are skipped before
anything is logged, written or counted; directory entries only create the
directory; file entries are written, integrity-checked against the index
(warning only) and counted. -/
def processEntry (ctx : RestoreCtx) (zip_name : Str) (st : RestState) (e : ZipEntry) : RestState :=
  let rel_path := e.name
  match enclosed_name rel_path with
  | none => st
  | some path =>
    let outpath := pathJoin ctx.dest_dir path
    if strEndsWith rel_path "/".data then
      { st with fx := st.fx ++ [Effect.ensureDir outpath] }
    else
      let st := { st with fx := st.fx ++ [Effect.ensureDir (parentDir outpath),
                                          Effect.fsWrite outpath] }
      let st :=
        match ctx.index with
        | some index =>
          match index.find? (fun ie : BackupIndexEntry => ie.relative_path == rel_path) with
          | some entry =>
            if ctx.hash e.content ≠ entry.sha256_hash then rSendLog ctx st (warnLine rel_path)
            else st
          | none => st
        | none => st
      let st := { st with restored_count := st.restored_count + 1 }
      let st := rSendMsg ctx st
        (.progress "Restoring Files".data (zip_name ++ " (".data ++ rel_path ++ ")".data) none)
      rSendMsg ctx st (.subProgress ((st.restored_count : ℚ) / (ctx.total_files : ℚ)))

/-- All entries of one archive, in order. -/
def processArchive (ctx : RestoreCtx) (zip_name : Str) (st : RestState)
    (entries : List ZipEntry) : RestState :=
  entries.foldl (processEntry ctx zip_name) st

/-- The archive loop of `restore_backup` (src/restorer.rs lines 68-131). -/
def restoreArchives (ctx : RestoreCtx) (o : RestoreOracle) (backup_dir : Str)
    (total_archives : Nat) : Nat → List Str → RestState → RestState × Except Str Unit
  | _, [], st => (st, .ok ())
  | archive_idx, zip_name :: rest, st =>
    match o.zipFs (pathJoin backup_dir zip_name) with
    | none =>
      let st := rSendLog ctx st ("[error] Zip archive missing: ".data ++ zip_name)
      restoreArchives ctx o backup_dir total_archives (archive_idx + 1) rest st
    | some opened =>
      let st := rSendMsg ctx st (.progress "Restoring Files".data
        ("Extracting ".data ++ zip_name) (some "BUSY".data))
      let st := rSendMsg ctx st
        (.subProgress ((archive_idx : ℚ) / (total_archives : ℚ)))
      match opened with
      | .error e => (st, .error ("Failed to read zip: ".data ++ e))
      | .ok entries =>
        let st := processArchive ctx zip_name st entries
        let st := rSendLog ctx st ("[done] Restored archive: ".data ++ zip_name)
        restoreArchives ctx o backup_dir total_archives (archive_idx + 1) rest st

/-- Archive loop plus the success epilogue of `restore_backup`
(src/restorer.rs lines 68-138), factored out so the loop's pre-state can be
reasoned about uniformly. -/
def restoreFinish (ctx : RestoreCtx) (o : RestoreOracle) (backup_dir : Str)
    (zips : List Str) (st : RestState) : RestState × Except Str (List Str) :=
  match restoreArchives ctx o backup_dir zips.length 0 zips st with
  | (st, .error e) => (st, .error e)
  | (st, .ok _) =>
    let st := rSendMsg ctx st (.subProgress 1)
    let st := rSendMsg ctx st (.log "Restore completed successfully!".data)
    let st := { st with logs := st.logs ++ ["Restore completed successfully!".data] }
    (st, .ok st.logs)

/-- Embeds `restore_backup` (src/restorer.rs lines 27-139).  The distinct
read/parse failure strings of the manifest are carried by the oracle. -/
def restore_backup (o : RestoreOracle) (backup_dir : Str) (hasTx : Bool) :
    RestState × Except Str (List Str) :=
  let st0 : RestState := { logs := [], msgs := [], fx := [], restored_count := 0 }
  match o.infoFile with
  | none => (st0, .error ("Backup info file not found at: ".data
      ++ pathJoin backup_dir ".rusty_sync_info.json".data))
  | some (.error e) => (st0, .error ("Failed to read info file: ".data ++ e))
  | some (.ok info) =>
    let ctx0 : RestoreCtx := { hash := o.hash, hasTx := hasTx, dest_dir := info.source_path,
                               index := info.index, total_files := 0 }
    let st := rSendLog ctx0 st0 ("Restoring backup from ".data ++ quoted backup_dir
      ++ " to ".data ++ quoted info.source_path)
    let st := if !o.destExists then { st with fx := st.fx ++ [Effect.ensureDir info.source_path] }
              else st
    if info.zip_files.isEmpty then
      let st := { st with logs := st.logs ++ ["No zip files found in metadata.".data] }
      (st, .ok st.logs)
    else
      let total_files := totalFileCount (fun z => o.zipFs z) (info.zip_files.map
        (fun z => pathJoin backup_dir z))
      let ctx : RestoreCtx := { ctx0 with total_files := total_files }
      let st := rSendMsg ctx st (.log ("[info] Found files across archives.".data))
      restoreFinish ctx o backup_dir info.zip_files st

/- ===================== Observers used in theorem statements ===================== -/

/-- Is the message a `Done`? -/
def isDoneMsg : Msg → Bool
  | .done _ _ => true
  | _ => false

/-- Is the message a `Done` carrying a cancellation error (the condition on
which the worker loop breaks)? -/
def isCancelledDoneMsg : Msg → Bool
  | .done _ (.error e) => isCancelledErr e
  | _ => false

/-- Is the message a `Progress` event? -/
def isProgressMsg : Msg → Bool
  | .progress _ _ _ => true
  | _ => false

/-- The state `st2` extends the channel trace of `st` with messages that
are neither `Done` nor `Finished` — the only kinds of message the installer
itself can send. -/
def msgsExtend (st st2 : InstState) : Prop :=
  ∃ new, st2.msgs = st.msgs ++ new ∧ ∀ m ∈ new, isDoneMsg m = false ∧ m ≠ Msg.finished

/-- The part of the trace strictly after the first message satisfying `p`,
or `none` when no message satisfies `p`. -/
def suffixAfterFirst (p : Msg → Bool) : List Msg → Option (List Msg)
  | [] => none
  | m :: rest => if p m then some rest else suffixAfterFirst p rest

/-- The `SubProgress` ratios of a message trace, in emission order. -/
def ratiosOf (ms : List Msg) : List ℚ :=
  ms.filterMap (fun m => match m with | .subProgress q => some q | _ => none)

/-- Specification of the ratios emitted by the download loop: successive
prefix sums of the chunk sizes, each divided by the content length. -/
def chunkRatios (d T : Nat) : List Nat → List ℚ
  | [] => []
  | n :: rest => (((d + n : Nat) : ℚ) / (T : ℚ)) :: chunkRatios (d + n) T rest

/- ===================== Concrete instances for witnesses and counterexamples ===================== -/

/-- Regex oracle whose pattern always compiles and matches everything. -/
def wRegexAll : RegexOracle :=
  { compiles := fun _ => true, isMatch := fun _ _ => true,
    findFirst := fun _ _ => none, captureFirst := fun _ _ => none }

/-- Release with two linux tarball assets (arm64 listed first). -/
def wRelease12 : GitHubRelease :=
  { tag_name := "v1.2".data,
    assets := [{ name := "bar-linux-arm64.tar.gz".data, browser_download_url := "u1".data },
               { name := "bar-linux-amd64.tar.gz".data, browser_download_url := "u2".data }] }

/-- Release whose tag consists of the single character `v`. -/
def wReleaseV : GitHubRelease :=
  { tag_name := "v".data,
    assets := [{ name := "a.deb".data, browser_download_url := "u".data }] }

/-- Oracle serving `wRelease12` for any GitHub repository. -/
def wOracleG : ResolverOracle :=
  { regex := wRegexAll, httpText := fun _ => .error "off".data,
    flutter := .error "off".data, githubRelease := fun _ => .ok wRelease12,
    vscodeFinalUrl := fun _ => .error "off".data, urlJoin := fun _ _ => none,
    pkgVersion := fun _ _ => none }

/-- Oracle serving the degenerate `wReleaseV`. -/
def wOracleV : ResolverOracle := { wOracleG with githubRelease := fun _ => .ok wReleaseV }

/-- Oracle on which every external strategy input is inert. -/
def wOracleInert : ResolverOracle := { wOracleG with githubRelease := fun _ => .error "off".data }

/-- An apt-based host. -/
def wDistroApt : DistroInfo := { id := "ubuntu".data, pkg_manager := .apt }

/-- Catalog entry with a GitHub source. -/
def wSpecGh : SoftwareSpec :=
  { display_name := "x".data, description := none, enabled_by_default := false,
    install_dir := none, source := .github (some "foo/bar".data) "p".data, setup_steps := [] }

/-- Catalog entry delegating to the package manager, with one package step. -/
def wSpecPM : SoftwareSpec :=
  { wSpecGh with source := .packageManager, setup_steps := [.package ["foo".data]] }

/-- Catalog entry with a static download URL. -/
def wSpecStatic : SoftwareSpec :=
  { wSpecGh with source := .officialSource none (some "https://x/y.bin".data) none none }

/-- Catalog entry carrying the `PathHint` scenario of the specification. -/
def wSpecPH : SoftwareSpec :=
  { wSpecGh with
    install_dir := some "~/tools/foo".data,
    setup_steps := [.pathHint "<install_root>/bin".data] }

/-- Environment of the scenario host: bash shell, home `/home/user`. -/
def wEnvB : InstallEnv :=
  { home := "/home/user".data, shellVar := some "/bin/bash".data, sys_arch := "x86_64".data }

/-- Installer oracle with no reachable downloads or sub-processes. -/
def wOracleInstInert : InstallOracle :=
  { fetch := fun _ => .error "off".data, contentLength := fun _ => none,
    chunks := fun _ => [], runSpawn := fun _ => .error "off".data }

/-- Install context of the `PathHint` scenario (not a dry run). -/
def wCtx7 : InstallCtx :=
  { env := wEnvB, o := wOracleInstInert, distro := wDistroApt, spec := wSpecPH,
    dry_run := false }

/-- Fresh installer state: empty channel, logs, effects, no cancellation
signal, empty profile file. -/
def wSt0 : InstState := { msgs := [], logs := [], fx := [], cancel := [], profile := [] }

/-- The export line of the `PathHint` scenario. -/
def wExportLine : Str := "export PATH=\"$PATH:/home/user/tools/foo/bin\"".data

/-- Download oracle: a 10-byte body delivered in two 5-byte chunks with a
known content length of 10. -/
def wOracleDl : InstallOracle :=
  { fetch := fun _ => .ok (), contentLength := fun _ => some 10,
    chunks := fun _ => [5, 5], runSpawn := fun _ => .error "off".data }

/-- Dry-run install context for a package-manager item. -/
def wCtxPMdry : InstallCtx :=
  { env := wEnvB, o := wOracleInstInert, distro := wDistroApt, spec := wSpecPM,
    dry_run := true }

/-- Worker dependencies of a dry run over the package-manager item: real
resolver, real installer, dry-run flag set. -/
def wDepsDry : WorkerDeps :=
  { lookupSpec := fun _ => some wSpecPM
    resolve := fun s => resolve_asset wOracleG "x86_64".data s wDistroApt
    install := fun k _ a =>
      (let p := install_software wCtxPMdry k a wSt0; (p.1.msgs, p.1.fx, p.2)) }

/-- Worker dependencies whose install is cancelled immediately. -/
def wDepsCancel : WorkerDeps :=
  { lookupSpec := fun _ => some wSpecGh
    resolve := fun _ => ([], .ok { version := "1".data, url := "u".data, file_name := "f".data })
    install := fun _ _ _ => ([], [], .error "Installation cancelled by user".data) }

/-- Package-manager item with a single `Note` step: its install polls the
cancellation channel exactly once (before the step) and downloads
nothing. -/
def wSpecStepPM : SoftwareSpec :=
  { wSpecGh with source := .packageManager, setup_steps := [.note "n".data] }

/-- Package-manager item with no setup steps: its install has no polling
point at all. -/
def wSpecNoStep : SoftwareSpec :=
  { wSpecGh with source := .packageManager, setup_steps := [] }

/-- Worker environment for the cancellation traces: inert oracles, apt
host, not a dry run; the catalog serves `wSpecNoStep` for key `b` and
`wSpecStepPM` for every other key. -/
def wEnvC : WorkerEnv :=
  { env := wEnvB, io := wOracleInstInert, ro := wOracleInert, distro := wDistroApt,
    lookup := fun k => if k == "b".data then some wSpecNoStep else some wSpecStepPM,
    dry_run := false }

/-- Pre-resolved sentinel asset for the package-manager items. -/
def wResPM : ResolvedAsset :=
  { version := "1".data, url := "N/A".data, file_name := "N/A".data }

/-- Worker state whose cancellation schedule delivers the single user
signal at the second poll of the run: the first poll (made inside the first
item's install) still reads `false`, so the signal is pending from the
first item's `Done` onward. -/
def wStC : InstState :=
  { msgs := [], logs := [], fx := [], cancel := [false, true], profile := [] }

/-- Three pre-resolved queue items. -/
def wQueueC : List (Str × Option ResolvedAsset) :=
  [("a".data, some wResPM), ("b".data, some wResPM), ("c".data, some wResPM)]

/-- Fresh caller aggregation state. -/
def wAgg0 : AppAgg :=
  { logs := [],
    progress := { operation := [], current := [], done := 0, total := 0, succeeded := 0,
                  failed := 0, skipped := 0, speed := none, sub_ratio := 0, done_items := [] },
    completed := false }

/-- Integrity index recording hash `x` for `good.txt`. -/
def wIndex : List BackupIndexEntry :=
  [{ relative_path := "good.txt".data, original_size := 1, sha256_hash := "x".data,
     zip_file := none }]

/-- Backup manifest listing one archive. -/
def wInfo : BackupInfo :=
  { source_path := "/dst".data, backup_time := "t".data, zip_files := ["a.zip".data],
    index := some wIndex }

/-- Archive holding an unsafe entry and one regular file whose bytes hash to
`h`, mismatching the recorded `x`. -/
def wEntries : List ZipEntry :=
  [{ name := "../evil".data, content := [1] }, { name := "good.txt".data, content := [2] }]

/-- Restore oracle for the scenario: constant hash function `h`, one
existing archive. -/
def wOracleRestore : RestoreOracle :=
  { hash := fun _ => "h".data, infoFile := some (.ok wInfo),
    zipFs := fun z => if z = "/bk/a.zip".data then some (.ok wEntries) else none,
    destExists := true }

/- ===================== Helper lemmas ===================== -/

theorem pickFirstMax_eq_none {α : Type _} (key : α → Int) {l : List α} :
    pickFirstMax key l = none ↔ l = [] := by
  cases l with
  | nil => simp [pickFirstMax]
  | cons x xs =>
    constructor
    · intro h
      exfalso
      simp only [pickFirstMax] at h
      cases hx : pickFirstMax key xs with
      | none =>
        rw [hx] at h
        exact Option.noConfusion h
      | some y =>
        rw [hx] at h
        replace h : (if key y > key x then some y else some x) = none := h
        split at h <;> exact Option.noConfusion h
    · intro h
      exact List.noConfusion h

theorem sortDescBy_head?_eq_pickFirstMax {α : Type _} (key : α → Int) (l : List α) :
    (sortDescBy key l).head? = pickFirstMax key l := by
  induction l with
  | nil => rfl
  | cons x xs ih =>
    simp only [sortDescBy, pickFirstMax, ← ih]
    cases h : sortDescBy key xs with
    | nil => simp [insertDescBy]
    | cons y ys =>
      by_cases hk : key y > key x <;> simp [insertDescBy, hk]

theorem pickFirstMax_spec {α : Type _} (key : α → Int) {l : List α} {a : α}
    (h : pickFirstMax key l = some a) :
    ∃ l₁ l₂, l = l₁ ++ a :: l₂ ∧ (∀ b ∈ l₁, key b < key a) ∧ (∀ b ∈ l, key b ≤ key a) := by
  induction l generalizing a with
  | nil => simp [pickFirstMax] at h
  | cons x xs ih =>
    simp only [pickFirstMax] at h
    cases hx : pickFirstMax key xs with
    | none =>
      rw [hx] at h
      replace h : some x = some a := h
      have hxs : xs = [] := (pickFirstMax_eq_none key).1 hx
      subst hxs
      obtain rfl : x = a := by simpa using h
      exact ⟨[], [], rfl, by simp, by simp⟩
    | some y =>
      rw [hx] at h
      replace h : (if key y > key x then some y else some x) = some a := h
      by_cases hk : key y > key x
      · rw [if_pos hk] at h
        obtain rfl : y = a := by simpa using h
        obtain ⟨l₁, l₂, heq, hlt, hle⟩ := ih hx
        refine ⟨x :: l₁, l₂, by simp [heq], ?_, ?_⟩
        · intro b hb
          rcases List.mem_cons.mp hb with rfl | hb
          · exact hk
          · exact hlt b hb
        · intro b hb
          rcases List.mem_cons.mp hb with rfl | hb
          · exact le_of_lt hk
          · exact hle b hb
      · rw [if_neg hk] at h
        obtain rfl : x = a := by simpa using h
        obtain ⟨l₁, l₂, heq, hlt, hle⟩ := ih hx
        refine ⟨[], xs, rfl, by simp, ?_⟩
        intro b hb
        rcases List.mem_cons.mp hb with rfl | hb
        · exact le_refl _
        · exact (hle b hb).trans (not_lt.mp hk)

/- ===================== C1 ===================== -/

/-- C1: for every successful GitHub resolution through `resolve_asset`, the
selected asset is the first element, in original release-listing order, of
the pattern-matched assets attaining the maximal `githubScore`: every
matched asset scores no higher, and every matched asset listed earlier
scores strictly lower (ties therefore preserve listing order). -/
theorem github_resolution_picks_best_asset
    (o : ResolverOracle) (sys_arch : Str) (spec : SoftwareSpec) (repo pat : Str)
    (distro : DistroInfo) (fx : List Effect) (r : ResolvedAsset)
    (hsource : spec.source = .github (some repo) pat)
    (h : resolve_asset o sys_arch spec distro = (fx, .ok r)) :
    ∃ release a l₁ l₂,
      o.githubRelease ("https://api.github.com/repos/".data ++ repo ++ "/releases/latest".data)
        = .ok release ∧
      release.assets.filter (fun x => o.regex.isMatch pat x.name) = l₁ ++ a :: l₂ ∧
      r = { version := trimLeadingVs release.tag_name, url := a.browser_download_url,
            file_name := a.name } ∧
      (∀ b ∈ release.assets.filter (fun x => o.regex.isMatch pat x.name),
        githubScore sys_arch distro.pkg_manager b.name
          ≤ githubScore sys_arch distro.pkg_manager a.name) ∧
      (∀ b ∈ l₁, githubScore sys_arch distro.pkg_manager b.name
          < githubScore sys_arch distro.pkg_manager a.name) := by
  rw [resolve_asset, hsource] at h
  simp only [resolve_github] at h
  rcases hrel : o.githubRelease
      ("https://api.github.com/repos/".data ++ repo ++ "/releases/latest".data) with e | release
  · rw [hrel] at h
    simp [Prod.mk.injEq] at h
  · rw [hrel] at h
    cases hc : o.regex.compiles pat
    · rw [hc] at h
      simp [Prod.mk.injEq] at h
    · rw [hc] at h
      simp only [Bool.not_true, Bool.false_eq_true, if_false] at h
      rcases hs : sortDescBy (fun a => githubScore sys_arch distro.pkg_manager a.name)
          (release.assets.filter (fun x => o.regex.isMatch pat x.name)) with _ | ⟨a, tail⟩
      · rw [hs] at h
        simp [Prod.mk.injEq] at h
      · rw [hs] at h
        rw [Prod.mk.injEq] at h
        obtain ⟨hfx, hok⟩ := h
        rw [Except.ok.injEq] at hok
        have hhead : pickFirstMax (fun a => githubScore sys_arch distro.pkg_manager a.name)
            (release.assets.filter (fun x => o.regex.isMatch pat x.name)) = some a := by
          rw [← sortDescBy_head?_eq_pickFirstMax, hs]
          rfl
        obtain ⟨l₁, l₂, heq, hlt, hle⟩ := pickFirstMax_spec _ hhead
        exact ⟨release, a, l₁, l₂, rfl, heq, hok.symm,
          fun b hb => hle b hb, fun b hb => hlt b hb⟩

/-- Witness for C1: the spec scenario host (amd64, apt) with assets
`[arm64.tar.gz, amd64.tar.gz]` selects the amd64 tarball. -/
theorem github_resolution_picks_best_asset_witness :
    ∃ release a l₁ l₂,
      wOracleG.githubRelease ("https://api.github.com/repos/".data ++ "foo/bar".data
        ++ "/releases/latest".data) = .ok release ∧
      release.assets.filter (fun x => wOracleG.regex.isMatch "p".data x.name) = l₁ ++ a :: l₂ ∧
      ({ version := "1.2".data, url := "u2".data,
         file_name := "bar-linux-amd64.tar.gz".data } : ResolvedAsset)
        = { version := trimLeadingVs release.tag_name, url := a.browser_download_url,
            file_name := a.name } ∧
      (∀ b ∈ release.assets.filter (fun x => wOracleG.regex.isMatch "p".data x.name),
        githubScore "x86_64".data wDistroApt.pkg_manager b.name
          ≤ githubScore "x86_64".data wDistroApt.pkg_manager a.name) ∧
      (∀ b ∈ l₁, githubScore "x86_64".data wDistroApt.pkg_manager b.name
          < githubScore "x86_64".data wDistroApt.pkg_manager a.name) :=
  github_resolution_picks_best_asset wOracleG "x86_64".data wSpecGh "foo/bar".data "p".data
    wDistroApt [Effect.netGet "https://api.github.com/repos/foo/bar/releases/latest".data]
    { version := "1.2".data, url := "u2".data, file_name := "bar-linux-amd64.tar.gz".data }
    rfl (by decide)

/- ===================== C5 ===================== -/

/-- Counterexample to C5 as stated: a GitHub release whose tag is the single
character `v` (stripped entirely by `trim_start_matches('v')`) resolves
successfully with an empty version string. -/
theorem resolved_version_can_be_empty :
    (resolve_asset wOracleV "x86_64".data wSpecGh wDistroApt).2
      = .ok { version := [], url := "u".data, file_name := "a.deb".data } := by
  decide

theorem resolve_flutter_version_ne_nil (o : ResolverOracle) (fx : List Effect)
    (r : ResolvedAsset)
    (hflutter : ∀ rel, o.flutter = .ok rel → ∀ fr ∈ rel.releases, fr.version ≠ [])
    (h : resolve_flutter o = (fx, .ok r)) : r.version ≠ [] := by
  cases hfl : o.flutter with
  | error e => simp [resolve_flutter, hfl] at h
  | ok payload =>
    cases hcur : (payload.current_release.find? (fun p => p.1 = "stable".data)).map Prod.snd with
    | none => simp [resolve_flutter, hfl, hcur] at h
    | some hash =>
      cases hfind : payload.releases.find? (fun it => it.hash = hash) with
      | none => simp [resolve_flutter, hfl, hcur, hfind] at h
      | some release =>
        have hmem := hflutter payload hfl release (List.mem_of_find?_eq_some hfind)
        simp only [resolve_flutter, hfl, hcur, hfind, Prod.mk.injEq] at h
        obtain ⟨-, h2⟩ := h
        rw [← Except.ok.inj h2]
        exact hmem

theorem androidLoop_version_ne_nil (o : ResolverOracle) (html : Str) (ps : List Str)
    (hfind : ∀ p ∈ ps, ∀ u, o.regex.findFirst p html = some u →
      androidVersionOf (lastSegment u) ≠ [])
    (r : ResolvedAsset) (h : androidLoop o html ps = .ok r) : r.version ≠ [] := by
  induction ps with
  | nil => simp [androidLoop] at h
  | cons p rest ih =>
    simp only [androidLoop] at h
    split at h
    · simp at h
    · split at h
      · next url heq =>
        have hok := Except.ok.inj h
        rw [← hok]
        exact hfind p (by simp) url heq
      · exact ih (fun q hq => hfind q (by simp [hq])) h

theorem resolve_android_studio_version_ne_nil (o : ResolverOracle) (fx : List Effect)
    (r : ResolvedAsset)
    (handroid : ∀ p ∈ androidPatterns, ∀ html u, o.regex.findFirst p html = some u →
      androidVersionOf (lastSegment u) ≠ [])
    (h : resolve_android_studio o = (fx, .ok r)) : r.version ≠ [] := by
  simp only [resolve_android_studio, Prod.mk.injEq] at h
  obtain ⟨-, h⟩ := h
  split at h
  · simp at h
  · next html heq =>
    exact androidLoop_version_ne_nil o html androidPatterns
      (fun p hp => handroid p hp html) r h

theorem resolve_vscode_version_ne_nil (o : ResolverOracle) (distro : DistroInfo)
    (fx : List Effect) (r : ResolvedAsset)
    (hvscode : ∀ s m, o.regex.findFirst vscodeVersionPattern s = some m → m ≠ [])
    (h : resolve_vscode o distro = (fx, .ok r)) : r.version ≠ [] := by
  simp only [resolve_vscode, Prod.mk.injEq] at h
  obtain ⟨-, h⟩ := h
  split at h
  · simp at h
  · next final_url heq =>
    have hok := Except.ok.inj h
    rw [← hok]
    cases hf : o.regex.findFirst vscodeVersionPattern (lastSegment final_url) with
    | some m => simpa [hf] using hvscode _ m hf
    | none => simp [hf]

theorem resolve_generic_scraper_version_ne_nil (o : ResolverOracle)
    (sys_arch u vre dre : Str) (fx : List Effect) (r : ResolvedAsset)
    (hcapture : ∀ p html c, o.regex.captureFirst p html = some c → c ≠ [])
    (h : resolve_generic_scraper o sys_arch u vre dre = (fx, .ok r)) : r.version ≠ [] := by
  simp only [resolve_generic_scraper, Prod.mk.injEq] at h
  obtain ⟨-, h⟩ := h
  split at h
  · simp at h
  · next html heq =>
    split at h
    · simp at h
    · split at h
      · simp at h
      · split at h
        · simp at h
        · next version hcap =>
          split at h
          · simp at h
          · next durl hfnd =>
            have hok := Except.ok.inj h
            rw [← hok]
            exact hcapture _ html version hcap

theorem resolve_package_only_version_ne_nil (o : ResolverOracle) (spec : SoftwareSpec)
    (distro : DistroInfo) (fx : List Effect) (r : ResolvedAsset)
    (hpkg : ∀ pm p v, o.pkgVersion pm p = some v → v ≠ [])
    (h : resolve_package_only o spec distro = (fx, .ok r)) : r.version ≠ [] := by
  simp only [resolve_package_only, get_package_version, Prod.mk.injEq] at h
  cases hq : pkgQuerySpawnCmd distro.pkg_manager (firstPackageName spec) with
  | none =>
    rw [hq] at h
    obtain ⟨-, h⟩ := h
    have hok := Except.ok.inj h
    rw [← hok]
    simp
  | some cmd =>
    rw [hq] at h
    obtain ⟨-, h⟩ := h
    have hok := Except.ok.inj h
    rw [← hok]
    cases hv : o.pkgVersion distro.pkg_manager (firstPackageName spec) with
    | some v => simpa [hv] using hpkg _ _ v hv
    | none => simp [hv]

theorem resolve_github_version_ne_nil (o : ResolverOracle) (sys_arch : Str)
    (repo_opt : Option Str) (pat : Str) (distro : DistroInfo) (fx : List Effect)
    (r : ResolvedAsset)
    (hgithub : ∀ u rel, o.githubRelease u = .ok rel → trimLeadingVs rel.tag_name ≠ [])
    (h : resolve_github o sys_arch repo_opt pat distro = (fx, .ok r)) : r.version ≠ [] := by
  cases repo_opt with
  | none => simp [resolve_github] at h
  | some repo =>
    simp only [resolve_github, Prod.mk.injEq] at h
    obtain ⟨-, h⟩ := h
    split at h
    · next rel heq => simp at h
    · next rel heq =>
      split at h
      · simp at h
      · split at h
        · simp at h
        · next asset tail hsort =>
          have hok := Except.ok.inj h
          rw [← hok]
          exact hgithub _ rel heq

/-- C5 amended: a successfully resolved version is non-empty provided the
external inputs are non-degenerate; the exceptions forced by the code are a
GitHub tag consisting only of `v` characters, a generic-scraper version
capture matching the empty string, an empty flutter release version, an
android-studio file name fully consumed by the prefix/suffix trims, and an
empty package-manager version string.  All other paths (static URL, vscode
fallback, sentinels) yield non-empty versions unconditionally. -/
theorem resolved_version_nonempty_amended
    (o : ResolverOracle) (sys_arch : Str)
    (hflutter : ∀ rel, o.flutter = .ok rel → ∀ fr ∈ rel.releases, fr.version ≠ [])
    (handroid : ∀ p ∈ androidPatterns, ∀ html u, o.regex.findFirst p html = some u →
      androidVersionOf (lastSegment u) ≠ [])
    (hvscode : ∀ s m, o.regex.findFirst vscodeVersionPattern s = some m → m ≠ [])
    (hcapture : ∀ p html c, o.regex.captureFirst p html = some c → c ≠ [])
    (hpkg : ∀ pm p v, o.pkgVersion pm p = some v → v ≠ [])
    (hgithub : ∀ u rel, o.githubRelease u = .ok rel → trimLeadingVs rel.tag_name ≠ [])
    (spec : SoftwareSpec) (distro : DistroInfo) (fx : List Effect) (r : ResolvedAsset)
    (h : resolve_asset o sys_arch spec distro = (fx, .ok r)) : r.version ≠ [] := by
  rcases hsrc : spec.source with ⟨id, url, vre, dre⟩ | _ | ⟨repo, pat⟩
  · simp only [resolve_asset, hsrc] at h
    split at h
    · exact resolve_flutter_version_ne_nil o fx r hflutter h
    · split at h
      · exact resolve_android_studio_version_ne_nil o fx r handroid h
      · split at h
        · exact resolve_vscode_version_ne_nil o distro fx r hvscode h
        · split at h
          · next u v d =>
            exact resolve_generic_scraper_version_ne_nil o sys_arch u v d fx r hcapture h
          · next u =>
            rw [Prod.mk.injEq] at h
            have hok := Except.ok.inj h.2
            rw [← hok]
            simp [resolve_static]
          · simp at h
  · simp only [resolve_asset, hsrc] at h
    exact resolve_package_only_version_ne_nil o spec distro fx r hpkg h
  · simp only [resolve_asset, hsrc] at h
    exact resolve_github_version_ne_nil o sys_arch repo pat distro fx r hgithub h

/-- Witness for the amended C5 at a static-URL specification on an inert
oracle. -/
theorem resolved_version_nonempty_amended_witness :
    resolve_asset wOracleInert "x86_64".data wSpecStatic wDistroApt
      = ([], .ok (resolve_static "https://x/y.bin".data "download".data)) ∧
    (resolve_static "https://x/y.bin".data "download".data).version ≠ [] :=
  ⟨by decide,
   resolved_version_nonempty_amended wOracleInert "x86_64".data
    (by intro rel hrel fr hm; simp [wOracleInert, wOracleG] at hrel)
    (by intro p hp html u hf; simp [wOracleInert, wOracleG, wRegexAll] at hf)
    (by intro s m hf; simp [wOracleInert, wOracleG, wRegexAll] at hf)
    (by intro p html c hc; simp [wOracleInert, wOracleG, wRegexAll] at hc)
    (by intro pm p v hv; simp [wOracleInert, wOracleG] at hv)
    (by intro u rel hrel; simp [wOracleInert, wOracleG] at hrel)
    wSpecStatic wDistroApt [] (resolve_static "https://x/y.bin".data "download".data)
    (by decide)⟩

/- ===================== C6 ===================== -/

/-- C6: a `PackageManager`-source spec always resolves `Ok` with the
sentinel `N/A` URL and file name, performs no network request (its only
effect is at most the version-query sub-process), and falls back to the
sentinel version `package-manager` when the query fails. -/
theorem package_manager_resolution_sentinels
    (o : ResolverOracle) (sys_arch : Str) (spec : SoftwareSpec) (distro : DistroInfo)
    (hsource : spec.source = .packageManager) :
    ∃ fx r, resolve_asset o sys_arch spec distro = (fx, .ok r) ∧
      r.url = "N/A".data ∧ r.file_name = "N/A".data ∧
      (∀ u, Effect.netGet u ∉ fx) ∧
      (o.pkgVersion distro.pkg_manager (firstPackageName spec) = none →
        r.version = "package-manager".data) := by
  simp only [resolve_asset, hsource, resolve_package_only, get_package_version]
  cases hq : pkgQuerySpawnCmd distro.pkg_manager (firstPackageName spec) with
  | none =>
    refine ⟨[], _, rfl, rfl, rfl, by simp, fun _ => rfl⟩
  | some cmd =>
    refine ⟨[.spawn cmd], _, rfl, rfl, rfl, by simp, fun hv => ?_⟩
    simp [hv]

/-- Witness for C6 at the concrete package-manager item on an apt host. -/
theorem package_manager_resolution_sentinels_witness :
    ∃ fx r, resolve_asset wOracleG "x86_64".data wSpecPM wDistroApt = (fx, .ok r) ∧
      r.url = "N/A".data ∧ r.file_name = "N/A".data ∧
      (∀ u, Effect.netGet u ∉ fx) ∧
      (wOracleG.pkgVersion wDistroApt.pkg_manager (firstPackageName wSpecPM) = none →
        r.version = "package-manager".data) :=
  package_manager_resolution_sentinels wOracleG "x86_64".data wSpecPM wDistroApt rfl

/- ===================== C2 and C4 ===================== -/

theorem suffixAfterFirst_append (p : Msg → Bool) (xs ys : List Msg)
    (h : ∀ x ∈ xs, p x = false) :
    suffixAfterFirst p (xs ++ ys) = suffixAfterFirst p ys := by
  induction xs with
  | nil => rfl
  | cons m rest ih =>
    simp only [List.cons_append, suffixAfterFirst, h m (by simp)]
    simp only [Bool.false_eq_true, if_false]
    exact ih (fun x hx => h x (by simp [hx]))

theorem isCancelledDoneMsg_false_of_not_done (m : Msg) (h : isDoneMsg m = false) :
    isCancelledDoneMsg m = false := by
  cases m <;> simp_all [isDoneMsg, isCancelledDoneMsg]

theorem installItem_props (d : WorkerDeps) (key : Str) (spec : SoftwareSpec)
    (a : ResolvedAsset) (pre : List Msg)
    (hpre₁ : Msg.finished ∉ pre)
    (hpre₂ : ∀ m ∈ pre, isCancelledDoneMsg m = false)
    (hinst : ∀ k s b, ∀ m ∈ (d.install k s b).1, isDoneMsg m = false ∧ m ≠ .finished) :
    Msg.finished ∉ (installItem d key spec a pre).1 ∧
    ((installItem d key spec a pre).2.2 = false →
      ∀ m ∈ (installItem d key spec a pre).1, isCancelledDoneMsg m = false) ∧
    ((installItem d key spec a pre).2.2 = true →
      ∃ ms₀ res, (installItem d key spec a pre).1 = ms₀ ++ [Msg.done key res] ∧
        (∀ m ∈ ms₀, isCancelledDoneMsg m = false) ∧
        isCancelledDoneMsg (Msg.done key res) = true) := by
  rcases hI : d.install key spec a with ⟨ims, ifx, res⟩
  have hims : ∀ m ∈ ims, isDoneMsg m = false ∧ m ≠ Msg.finished := by
    intro m hm
    have := hinst key spec a m (by rw [hI]; exact hm)
    exact this
  simp only [installItem, hI]
  have hmid : ∀ m ∈ pre ++ [Msg.progress key "Installing".data (some "BUSY".data)] ++ ims,
      isCancelledDoneMsg m = false ∧ m ≠ Msg.finished := by
    intro m hm
    rcases List.mem_append.mp hm with h5 | h6
    · rcases List.mem_append.mp h5 with h7 | h8
      · refine ⟨hpre₂ m h7, fun hf => hpre₁ (hf ▸ h7)⟩
      · rw [List.mem_singleton] at h8
        subst h8
        exact ⟨rfl, by simp⟩
    · exact ⟨isCancelledDoneMsg_false_of_not_done m (hims m h6).1, (hims m h6).2⟩
  refine ⟨?_, ?_, ?_⟩
  · intro hmem
    rcases List.mem_append.mp hmem with h3 | h4
    · exact (hmid _ h3).2 rfl
    · rw [List.mem_singleton] at h4
      exact Msg.noConfusion h4
  · intro hbrk m hm
    rcases List.mem_append.mp hm with h3 | h4
    · exact (hmid m h3).1
    · rw [List.mem_singleton] at h4
      subst h4
      cases res with
      | ok logs => rfl
      | error e => simpa [isCancelledDoneMsg] using hbrk
  · intro hbrk
    refine ⟨pre ++ [Msg.progress key "Installing".data (some "BUSY".data)] ++ ims, res,
      rfl, fun m hm => (hmid m hm).1, ?_⟩
    cases res with
    | ok logs => simp at hbrk
    | error e => simpa [isCancelledDoneMsg] using hbrk

theorem itemEvents_props (d : WorkerDeps) (key : Str) (ropt : Option ResolvedAsset)
    (hres : ∀ spec fx e, d.resolve spec = (fx, .error e) →
      isCancelledErr ("Resolve failed: ".data ++ e) = false)
    (hinst : ∀ k s b, ∀ m ∈ (d.install k s b).1, isDoneMsg m = false ∧ m ≠ .finished) :
    Msg.finished ∉ (itemEvents d key ropt).1 ∧
    ((itemEvents d key ropt).2.2 = false →
      ∀ m ∈ (itemEvents d key ropt).1, isCancelledDoneMsg m = false) ∧
    ((itemEvents d key ropt).2.2 = true →
      ∃ ms₀ res, (itemEvents d key ropt).1 = ms₀ ++ [Msg.done key res] ∧
        (∀ m ∈ ms₀, isCancelledDoneMsg m = false) ∧
        isCancelledDoneMsg (Msg.done key res) = true) := by
  cases hlk : d.lookupSpec key with
  | none =>
    simp only [itemEvents, hlk]
    refine ⟨by simp, ?_, by simp⟩
    intro _ m hm
    simp only [List.mem_cons, List.mem_singleton] at hm
    rcases hm with hm | hm | hm
    · simp only [hm]; rfl
    · simp only [hm]
      show isCancelledErr "Missing spec".data = false
      decide
    · simp at hm
  | some spec =>
    cases ropt with
    | some a =>
      simp only [itemEvents, hlk]
      exact installItem_props d key spec a _ (by simp) (by intro m hm; simp at hm; simp [hm]; rfl)
        hinst
    | none =>
      rcases hR : d.resolve spec with ⟨rfx, rres⟩
      cases rres with
      | error e =>
        simp only [itemEvents, hlk, hR]
        refine ⟨by simp, ?_, by simp⟩
        intro _ m hm
        simp only [List.mem_cons, List.mem_singleton] at hm
        rcases hm with hm | hm | hm | hm
        · simp only [hm]; rfl
        · simp only [hm]; rfl
        · simp only [hm]
          show isCancelledErr ("Resolve failed: ".data ++ e) = false
          exact hres spec rfx e hR
        · simp at hm
      | ok a =>
        simp only [itemEvents, hlk, hR]
        rcases hII : installItem d key spec a
            [Msg.progress key "Preparing".data none, Msg.progress key "Resolving".data none]
          with ⟨ms, ifx, brk⟩
        have hprops := installItem_props d key spec a
          [Msg.progress key "Preparing".data none, Msg.progress key "Resolving".data none]
          (by simp) (by intro m hm; simp at hm; rcases hm with hm | hm <;> simp [hm] <;> rfl)
          hinst
        rw [hII] at hprops
        exact hprops

theorem processQueue_ends_finished (d : WorkerDeps)
    (hres : ∀ spec fx e, d.resolve spec = (fx, .error e) →
      isCancelledErr ("Resolve failed: ".data ++ e) = false)
    (hinst : ∀ k s b, ∀ m ∈ (d.install k s b).1, isDoneMsg m = false ∧ m ≠ .finished)
    (items : List (Str × Option ResolvedAsset)) :
    ∃ pre, (processQueue d items).1 = pre ++ [Msg.finished] ∧ Msg.finished ∉ pre := by
  induction items with
  | nil => exact ⟨[], rfl, by simp⟩
  | cons it rest ih =>
    obtain ⟨key, ropt⟩ := it
    have hprops := itemEvents_props d key ropt hres hinst
    rcases hIE : itemEvents d key ropt with ⟨ms, fx, brk⟩
    rw [hIE] at hprops
    obtain ⟨hfin, hfalse, htrue⟩ := hprops
    cases brk
    · simp only [processQueue, hIE]
      obtain ⟨pre', hpre', hnf'⟩ := ih
      refine ⟨ms ++ pre', ?_, ?_⟩
      · rw [hpre']
        simp
      · intro hmem
        rcases List.mem_append.mp hmem with hmem | hmem
        · exact hfin hmem
        · exact hnf' hmem
    · simp only [processQueue, hIE]
      exact ⟨ms, rfl, hfin⟩

theorem processQueue_cancel_suffix (d : WorkerDeps)
    (hres : ∀ spec fx e, d.resolve spec = (fx, .error e) →
      isCancelledErr ("Resolve failed: ".data ++ e) = false)
    (hinst : ∀ k s b, ∀ m ∈ (d.install k s b).1, isDoneMsg m = false ∧ m ≠ .finished)
    (items : List (Str × Option ResolvedAsset)) :
    suffixAfterFirst isCancelledDoneMsg (processQueue d items).1 = none ∨
    suffixAfterFirst isCancelledDoneMsg (processQueue d items).1 = some [Msg.finished] := by
  induction items with
  | nil =>
    left
    rfl
  | cons it rest ih =>
    obtain ⟨key, ropt⟩ := it
    have hprops := itemEvents_props d key ropt hres hinst
    rcases hIE : itemEvents d key ropt with ⟨ms, fx, brk⟩
    rw [hIE] at hprops
    obtain ⟨hfin, hfalse, htrue⟩ := hprops
    cases brk
    · simp only [processQueue, hIE]
      have hnone : ∀ m ∈ ms, isCancelledDoneMsg m = false := hfalse rfl
      rw [suffixAfterFirst_append _ ms _ hnone]
      exact ih
    · simp only [processQueue, hIE]
      obtain ⟨ms₀, res, hms, hnc, hcanc⟩ := htrue rfl
      right
      have hms2 : ms = ms₀ ++ [Msg.done key res] := hms
      rw [hms2, List.append_assoc]
      rw [suffixAfterFirst_append _ ms₀ _ hnc]
      simp [suffixAfterFirst, hcanc]

theorem msgsExtend_of_eq {st st2 : InstState} (h : st2.msgs = st.msgs) :
    msgsExtend st st2 := ⟨[], by simp [h], by simp⟩

theorem msgsExtend_trans {a b c : InstState} (h1 : msgsExtend a b) (h2 : msgsExtend b c) :
    msgsExtend a c := by
  obtain ⟨n1, e1, p1⟩ := h1
  obtain ⟨n2, e2, p2⟩ := h2
  refine ⟨n1 ++ n2, by rw [e2, e1, List.append_assoc], ?_⟩
  intro m hm
  rcases List.mem_append.mp hm with h | h
  · exact p1 m h
  · exact p2 m h

theorem msgsExtend_pushMsg (st : InstState) (m : Msg)
    (h : isDoneMsg m = false ∧ m ≠ Msg.finished) : msgsExtend st (pushMsg st m) := by
  refine ⟨[m], rfl, ?_⟩
  intro x hx
  rw [List.mem_singleton] at hx
  subst hx
  exact h

theorem msgsExtend_pipeLog (st : InstState) (l : Str) : msgsExtend st (pipeLog st l) := by
  refine ⟨[.log l], rfl, ?_⟩
  intro x hx
  rw [List.mem_singleton] at hx
  subst hx
  exact ⟨rfl, by simp⟩

theorem pollCancel_msgs (st : InstState) : (pollCancel st).2.msgs = st.msgs := by
  cases h : st.cancel <;> simp [pollCancel, h]

theorem msgsExtend_runPipedLines (lines : List Str) (st : InstState) :
    msgsExtend st (runPipedLines st lines).1 := by
  induction lines generalizing st with
  | nil => exact msgsExtend_of_eq rfl
  | cons line rest ih =>
    rcases hp : pollCancel st with ⟨b, st2⟩
    have h2 : msgsExtend st st2 :=
      msgsExtend_of_eq (by have := pollCancel_msgs st; rw [hp] at this; exact this)
    simp only [runPipedLines, hp]
    cases b with
    | true => exact h2
    | false =>
      exact msgsExtend_trans h2 (msgsExtend_trans
        (msgsExtend_pushMsg st2 (.log line) ⟨rfl, by simp⟩) (ih _))

theorem msgsExtend_run_piped (o : InstallOracle) (st : InstState) (cmd : Str) :
    msgsExtend st (run_piped o st cmd).1 := by
  simp only [run_piped]
  split
  next e heq => exact msgsExtend_of_eq rfl
  next lines status heq =>
    split
    next st2 heq2 =>
      have h := msgsExtend_runPipedLines lines (pushFx st (.spawn cmd))
      rw [heq2] at h
      exact msgsExtend_trans (msgsExtend_of_eq rfl) h
    next st2 heq2 =>
      have h := msgsExtend_runPipedLines lines (pushFx st (.spawn cmd))
      rw [heq2] at h
      exact msgsExtend_trans (msgsExtend_of_eq rfl) h

theorem msgsExtend_run_piped_out (o : InstallOracle) (st stIn st2 : InstState) (cmd : Str)
    (r : Except Str Int) (h : run_piped o stIn cmd = (st2, r)) (hin : msgsExtend st stIn) :
    msgsExtend st st2 := by
  have h0 := msgsExtend_run_piped o stIn cmd
  rw [h] at h0
  exact msgsExtend_trans hin h0

theorem msgsExtend_downloadChunkLoop (t : Option Nat) (dest : Str) (chunks : List Nat)
    (st : InstState) (downloaded : Nat) :
    msgsExtend st (downloadChunkLoop t dest st downloaded chunks).1 := by
  induction chunks generalizing st downloaded with
  | nil =>
    rcases hp : pollCancel st with ⟨b, st2⟩
    have h2 : msgsExtend st st2 :=
      msgsExtend_of_eq (by have := pollCancel_msgs st; rw [hp] at this; exact this)
    simp only [downloadChunkLoop, hp]
    cases b <;> exact h2
  | cons n rest ih =>
    rcases hp : pollCancel st with ⟨b, st2⟩
    have h2 : msgsExtend st st2 :=
      msgsExtend_of_eq (by have := pollCancel_msgs st; rw [hp] at this; exact this)
    simp only [downloadChunkLoop, hp]
    cases b with
    | true => exact h2
    | false =>
      cases t with
      | some total =>
        refine msgsExtend_trans h2 (msgsExtend_trans (msgsExtend_of_eq rfl)
          (msgsExtend_trans (msgsExtend_pushMsg _ (.subProgress _) ⟨rfl, by simp⟩)
            (msgsExtend_trans (msgsExtend_pushMsg _ (.progress [] downloadingText none)
              ⟨rfl, by simp⟩) (ih _ _))))
      | none =>
        refine msgsExtend_trans h2 (msgsExtend_trans (msgsExtend_of_eq rfl)
          (msgsExtend_trans (msgsExtend_pushMsg _ (.progress [] downloadingText none)
            ⟨rfl, by simp⟩) (ih _ _)))

theorem msgsExtend_download_to_file (o : InstallOracle) (st : InstState) (url dest : Str) :
    msgsExtend st (download_to_file o st url dest).1 := by
  simp only [download_to_file]
  split
  next e heq => exact msgsExtend_of_eq rfl
  next u heq =>
    exact msgsExtend_trans
      (msgsExtend_of_eq (rfl : (pushFx st (.fsWrite dest)).msgs = st.msgs))
      (msgsExtend_downloadChunkLoop _ _ _ _ _)

theorem msgsExtend_download_out (o : InstallOracle) (st stIn st2 : InstState)
    (url dest : Str) (r : Except Str Unit)
    (h : download_to_file o stIn url dest = (st2, r)) (hin : msgsExtend st stIn) :
    msgsExtend st st2 := by
  have h0 := msgsExtend_download_to_file o stIn url dest
  rw [h] at h0
  exact msgsExtend_trans hin h0

theorem msgsExtend_execStep (ctx : InstallCtx) (st : InstState) (step : SetupStep) :
    msgsExtend st (execStep ctx st step).1 := by
  cases step with
  | package packages =>
    simp only [execStep]
    split
    next cmd heq =>
      split
      · exact msgsExtend_pipeLog st _
      · split
        next st2 e heq2 =>
          exact msgsExtend_run_piped_out ctx.o st _ st2 _ _ heq2 (msgsExtend_pipeLog st _)
        next st2 status heq2 =>
          exact msgsExtend_trans
            (msgsExtend_run_piped_out ctx.o st _ st2 _ _ heq2 (msgsExtend_pipeLog st _))
            (msgsExtend_pipeLog st2 _)
    next heq => exact msgsExtend_of_eq rfl
  | pathHint value =>
    simp only [execStep]
    split
    · exact msgsExtend_pipeLog st _
    · split
      · exact msgsExtend_pipeLog st _
      · exact msgsExtend_trans (msgsExtend_of_eq rfl) (msgsExtend_pipeLog _ _)
  | note value =>
    simp only [execStep]
    exact msgsExtend_of_eq rfl
  | shell command =>
    simp only [execStep]
    split
    · exact msgsExtend_pipeLog st _
    · split
      next st2 e heq =>
        exact msgsExtend_run_piped_out ctx.o st _ st2 _ _ heq (msgsExtend_pipeLog st _)
      next st2 status heq =>
        exact msgsExtend_trans
          (msgsExtend_run_piped_out ctx.o st _ st2 _ _ heq (msgsExtend_pipeLog st _))
          (msgsExtend_pipeLog st2 _)

theorem msgsExtend_runSteps (ctx : InstallCtx) (steps : List SetupStep) (st : InstState) :
    msgsExtend st (runSteps ctx st steps).1 := by
  induction steps generalizing st with
  | nil => exact msgsExtend_of_eq rfl
  | cons step rest ih =>
    rcases hp : pollCancel st with ⟨b, st2⟩
    have h2 : msgsExtend st st2 :=
      msgsExtend_of_eq (by have := pollCancel_msgs st; rw [hp] at this; exact this)
    simp only [runSteps, hp]
    cases b with
    | true => exact h2
    | false =>
      have h3 := msgsExtend_execStep ctx st2 step
      rcases he : execStep ctx st2 step with ⟨st3, r⟩
      rw [he] at h3
      simp only [he]
      cases r with
      | error e => exact msgsExtend_trans h2 h3
      | ok u => exact msgsExtend_trans (msgsExtend_trans h2 h3) (ih st3)

theorem msgsExtend_runSteps_out (ctx : InstallCtx) (st stIn st2 : InstState)
    (steps : List SetupStep) (r : Except Str Unit) (h : runSteps ctx stIn steps = (st2, r))
    (hin : msgsExtend st stIn) : msgsExtend st st2 := by
  have h0 := msgsExtend_runSteps ctx steps stIn
  rw [h] at h0
  exact msgsExtend_trans hin h0

theorem msgsExtend_extractVia (o : InstallOracle) (st : InstState) (command : Str) :
    msgsExtend st (extractVia o st command).1 := by
  simp only [extractVia]
  split
  next st2 e heq =>
    exact msgsExtend_run_piped_out o st st st2 command _ heq (msgsExtend_of_eq rfl)
  next st2 status heq =>
    exact msgsExtend_run_piped_out o st st st2 command _ heq (msgsExtend_of_eq rfl)

theorem msgsExtend_extract_archive (ctx : InstallCtx) (st : InstState)
    (path install_root : Str) :
    msgsExtend st (extract_archive ctx st path install_root).1 := by
  simp only [extract_archive]
  split
  · exact msgsExtend_of_eq rfl
  · split
    · exact msgsExtend_extractVia ctx.o st _
    · split
      · exact msgsExtend_extractVia ctx.o st _
      · split
        · exact msgsExtend_extractVia ctx.o st _
        · exact msgsExtend_of_eq rfl

theorem msgsExtend_extract_out (ctx : InstallCtx) (st stIn st2 : InstState)
    (path root : Str) (r : Except Str Str)
    (h : extract_archive ctx stIn path root = (st2, r)) (hin : msgsExtend st stIn) :
    msgsExtend st st2 := by
  have h0 := msgsExtend_extract_archive ctx stIn path root
  rw [h] at h0
  exact msgsExtend_trans hin h0

theorem msgsExtend_handle_vscode_install (ctx : InstallCtx) (st : InstState) (path : Str) :
    msgsExtend st (handle_vscode_install ctx st path).1 := by
  simp only [handle_vscode_install]
  split
  next cmd heq =>
    split
    · exact msgsExtend_of_eq rfl
    · split
      next st2 e heq2 =>
        exact msgsExtend_run_piped_out ctx.o st st st2 cmd _ heq2 (msgsExtend_of_eq rfl)
      next st2 status heq2 =>
        exact msgsExtend_run_piped_out ctx.o st st st2 cmd _ heq2 (msgsExtend_of_eq rfl)
  next heq => exact msgsExtend_of_eq rfl

theorem msgsExtend_vscode_out (ctx : InstallCtx) (st stIn st2 : InstState)
    (path : Str) (r : Except Str Str)
    (h : handle_vscode_install ctx stIn path = (st2, r)) (hin : msgsExtend st stIn) :
    msgsExtend st st2 := by
  have h0 := msgsExtend_handle_vscode_install ctx stIn path
  rw [h] at h0
  exact msgsExtend_trans hin h0

theorem msgsExtend_install_software (ctx : InstallCtx) (name : Str)
    (resolved : ResolvedAsset) (st : InstState) :
    msgsExtend st (install_software ctx name resolved st).1 := by
  simp only [install_software]
  split
  next st3 e heq =>
    refine msgsExtend_runSteps_out ctx st _ st3 ctx.spec.setup_steps _ heq ?_
    split
    · exact msgsExtend_trans
        (msgsExtend_trans (msgsExtend_pipeLog _ _) (msgsExtend_pipeLog _ _))
        (msgsExtend_of_eq rfl)
    · exact msgsExtend_trans (msgsExtend_pipeLog _ _) (msgsExtend_pipeLog _ _)
  next st3 u heq =>
    have h3 : msgsExtend st st3 := by
      refine msgsExtend_runSteps_out ctx st _ st3 ctx.spec.setup_steps _ heq ?_
      split
      · exact msgsExtend_trans
          (msgsExtend_trans (msgsExtend_pipeLog _ _) (msgsExtend_pipeLog _ _))
          (msgsExtend_of_eq rfl)
      · exact msgsExtend_trans (msgsExtend_pipeLog _ _) (msgsExtend_pipeLog _ _)
    split
    · split
      next st4 e2 heq2 =>
        split at heq2
        · rw [Prod.mk.injEq] at heq2
          exact absurd heq2.2 (by simp)
        · split at heq2
          next st5 e3 heq3 =>
            rw [Prod.mk.injEq] at heq2
            rw [← heq2.1]
            exact msgsExtend_download_out ctx.o st _ st5 _ _ _ heq3
              (msgsExtend_trans h3 (msgsExtend_pipeLog _ _))
          next st5 u3 heq3 =>
            rw [Prod.mk.injEq] at heq2
            exact absurd heq2.2 (by simp)
      next st4 u2 heq2 =>
        have h4 : msgsExtend st st4 := by
          split at heq2
          · rw [Prod.mk.injEq] at heq2
            rw [← heq2.1]
            exact msgsExtend_trans h3 (msgsExtend_pipeLog _ _)
          · split at heq2
            next st5 e3 heq3 =>
              rw [Prod.mk.injEq] at heq2
              exact absurd heq2.2 (by simp)
            next st5 u3 heq3 =>
              rw [Prod.mk.injEq] at heq2
              rw [← heq2.1]
              exact msgsExtend_trans (msgsExtend_download_out ctx.o st _ st5 _ _ _ heq3
                (msgsExtend_trans h3 (msgsExtend_pipeLog _ _))) (msgsExtend_pipeLog _ _)
        split
        next st6 e4 heq4 =>
          split at heq4
          · exact msgsExtend_vscode_out ctx st _ st6 _ _ heq4 (by
              split
              · exact msgsExtend_trans h4 (msgsExtend_of_eq rfl)
              · exact h4)
          · exact msgsExtend_extract_out ctx st _ st6 _ _ _ heq4 (by
              split
              · exact msgsExtend_trans h4 (msgsExtend_of_eq rfl)
              · exact h4)
        next st6 res6 heq4 =>
          show msgsExtend st (pipeLog st6 res6)
          refine msgsExtend_trans ?_ (msgsExtend_pipeLog st6 res6)
          split at heq4
          · exact msgsExtend_vscode_out ctx st _ st6 _ _ heq4 (by
              split
              · exact msgsExtend_trans h4 (msgsExtend_of_eq rfl)
              · exact h4)
          · exact msgsExtend_extract_out ctx st _ st6 _ _ _ heq4 (by
              split
              · exact msgsExtend_trans h4 (msgsExtend_of_eq rfl)
              · exact h4)
    · exact msgsExtend_trans h3 (msgsExtend_of_eq rfl)

theorem installItemC_props (w : WorkerEnv) (st : InstState) (key : Str)
    (spec : SoftwareSpec) (resolved : ResolvedAsset) :
    ∃ new, (installItemC w st key spec resolved).1.msgs = st.msgs ++ new ∧
      Msg.finished ∉ new ∧
      ((installItemC w st key spec resolved).2 = false →
        ∀ m ∈ new, isCancelledDoneMsg m = false) ∧
      ((installItemC w st key spec resolved).2 = true →
        ∃ ms₀ res, new = ms₀ ++ [Msg.done key res] ∧
          (∀ m ∈ ms₀, isCancelledDoneMsg m = false) ∧
          isCancelledDoneMsg (Msg.done key res) = true) := by
  have hI := msgsExtend_install_software
    { env := w.env, o := w.io, distro := w.distro, spec := spec, dry_run := w.dry_run }
    key resolved
    { pushMsg st (.progress key "Installing".data (some "BUSY".data)) with logs := [] }
  rcases hr : install_software
      { env := w.env, o := w.io, distro := w.distro, spec := spec, dry_run := w.dry_run }
      key resolved
      { pushMsg st (.progress key "Installing".data (some "BUSY".data)) with logs := [] }
    with ⟨st2, res⟩
  rw [hr] at hI
  obtain ⟨inner, hinner, hmid⟩ := hI
  simp only [installItemC, hr]
  refine ⟨[Msg.progress key "Installing".data (some "BUSY".data)] ++ inner
    ++ [Msg.done key res], ?_, ?_, ?_, ?_⟩
  · show (pushMsg st2 (.done key res)).msgs = _
    have : st2.msgs = st.msgs ++ [Msg.progress key "Installing".data (some "BUSY".data)]
        ++ inner := hinner
    simp [pushMsg, this]
  · intro hmem
    rcases List.mem_append.mp hmem with h | h
    · rcases List.mem_append.mp h with h | h
      · rw [List.mem_singleton] at h
        exact Msg.noConfusion h
      · exact (hmid _ h).2 rfl
    · rw [List.mem_singleton] at h
      exact Msg.noConfusion h
  · intro hbrk m hm
    rcases List.mem_append.mp hm with h | h
    · rcases List.mem_append.mp h with h | h
      · rw [List.mem_singleton] at h
        subst h
        rfl
      · exact isCancelledDoneMsg_false_of_not_done m (hmid m h).1
    · rw [List.mem_singleton] at h
      subst h
      cases res with
      | ok logs => rfl
      | error e => simpa [isCancelledDoneMsg] using hbrk
  · intro hbrk
    refine ⟨[Msg.progress key "Installing".data (some "BUSY".data)] ++ inner, res, by simp,
      ?_, ?_⟩
    · intro m hm
      rcases List.mem_append.mp hm with h | h
      · rw [List.mem_singleton] at h
        subst h
        rfl
      · exact isCancelledDoneMsg_false_of_not_done m (hmid m h).1
    · cases res with
      | ok logs => simp at hbrk
      | error e => simpa [isCancelledDoneMsg] using hbrk

theorem itemEventsC_props (w : WorkerEnv) (st : InstState) (key : Str)
    (ropt : Option ResolvedAsset)
    (hres : ropt = none → ∀ spec, w.lookup key = some spec → ∀ fx e,
      resolve_asset w.ro w.env.sys_arch spec w.distro = (fx, .error e) →
      isCancelledErr ("Resolve failed: ".data ++ e) = false) :
    ∃ new, (itemEventsC w st key ropt).1.msgs = st.msgs ++ new ∧
      Msg.finished ∉ new ∧
      ((itemEventsC w st key ropt).2 = false →
        ∀ m ∈ new, isCancelledDoneMsg m = false) ∧
      ((itemEventsC w st key ropt).2 = true →
        ∃ ms₀ res, new = ms₀ ++ [Msg.done key res] ∧
          (∀ m ∈ ms₀, isCancelledDoneMsg m = false) ∧
          isCancelledDoneMsg (Msg.done key res) = true) := by
  cases hlk : w.lookup key with
  | none =>
    simp only [itemEventsC, hlk]
    refine ⟨[Msg.progress key "Preparing".data none,
      Msg.done key (.error "Missing spec".data)], by simp [pushMsg], by simp, ?_, by simp⟩
    intro _ m hm
    rcases List.mem_cons.mp hm with h | h
    · subst h
      rfl
    · rw [List.mem_singleton] at h
      subst h
      show isCancelledErr "Missing spec".data = false
      decide
  | some spec =>
    cases ropt with
    | some a =>
      obtain ⟨new, hnew, h1, h2, h3⟩ := installItemC_props w
        (pushMsg st (.progress key "Preparing".data none)) key spec a
      simp only [itemEventsC, hlk]
      refine ⟨[Msg.progress key "Preparing".data none] ++ new, ?_, ?_, ?_, ?_⟩
      · rw [hnew]
        simp [pushMsg]
      · intro hmem
        rcases List.mem_append.mp hmem with h | h
        · rw [List.mem_singleton] at h
          exact Msg.noConfusion h
        · exact h1 h
      · intro hbrk m hm
        rcases List.mem_append.mp hm with h | h
        · rw [List.mem_singleton] at h
          subst h
          rfl
        · exact h2 hbrk m h
      · intro hbrk
        obtain ⟨ms₀, res, hsplit, hnc, hcanc⟩ := h3 hbrk
        exact ⟨[Msg.progress key "Preparing".data none] ++ ms₀, res,
          by rw [hsplit, List.append_assoc], by
            intro m hm
            rcases List.mem_append.mp hm with h | h
            · rw [List.mem_singleton] at h
              subst h
              rfl
            · exact hnc m h, hcanc⟩
    | none =>
      rcases hR : resolve_asset w.ro w.env.sys_arch spec w.distro with ⟨rfx, rres⟩
      cases rres with
      | error e =>
        simp only [itemEventsC, hlk, hR]
        refine ⟨[Msg.progress key "Preparing".data none,
          Msg.progress key "Resolving".data none,
          Msg.done key (.error ("Resolve failed: ".data ++ e))],
          by simp [pushMsg], by simp, ?_, by simp⟩
        intro _ m hm
        rcases List.mem_cons.mp hm with h | h
        · subst h
          rfl
        · rcases List.mem_cons.mp h with h | h
          · subst h
            rfl
          · rw [List.mem_singleton] at h
            subst h
            show isCancelledErr ("Resolve failed: ".data ++ e) = false
            exact hres rfl spec hlk rfx e hR
      | ok a =>
        obtain ⟨new, hnew, h1, h2, h3⟩ := installItemC_props w
          { pushMsg (pushMsg st (.progress key "Preparing".data none))
              (.progress key "Resolving".data none) with
            fx := (pushMsg (pushMsg st (.progress key "Preparing".data none))
              (.progress key "Resolving".data none)).fx ++ rfx } key spec a
        simp only [itemEventsC, hlk, hR]
        refine ⟨[Msg.progress key "Preparing".data none,
          Msg.progress key "Resolving".data none] ++ new, ?_, ?_, ?_, ?_⟩
        · rw [hnew]
          simp [pushMsg]
        · intro hmem
          rcases List.mem_append.mp hmem with h | h
          · rcases List.mem_cons.mp h with h | h
            · exact Msg.noConfusion h
            · rw [List.mem_singleton] at h
              exact Msg.noConfusion h
          · exact h1 h
        · intro hbrk m hm
          rcases List.mem_append.mp hm with h | h
          · rcases List.mem_cons.mp h with h | h
            · subst h
              rfl
            · rw [List.mem_singleton] at h
              subst h
              rfl
          · exact h2 hbrk m h
        · intro hbrk
          obtain ⟨ms₀, res, hsplit, hnc, hcanc⟩ := h3 hbrk
          exact ⟨[Msg.progress key "Preparing".data none,
            Msg.progress key "Resolving".data none] ++ ms₀, res,
            by rw [hsplit, List.append_assoc], by
              intro m hm
              rcases List.mem_append.mp hm with h | h
              · rcases List.mem_cons.mp h with h | h
                · subst h
                  rfl
                · rw [List.mem_singleton] at h
                  subst h
                  rfl
              · exact hnc m h, hcanc⟩

theorem processQueueC_msgs (w : WorkerEnv) (items : List (Str × Option ResolvedAsset))
    (st : InstState)
    (hres : ∀ k, (k, (none : Option ResolvedAsset)) ∈ items → ∀ spec,
      w.lookup k = some spec → ∀ fx e,
      resolve_asset w.ro w.env.sys_arch spec w.distro = (fx, .error e) →
      isCancelledErr ("Resolve failed: ".data ++ e) = false) :
    ∃ new, (processQueueC w st items).msgs = st.msgs ++ new ∧
      (∃ pre, new = pre ++ [Msg.finished] ∧ Msg.finished ∉ pre) ∧
      (suffixAfterFirst isCancelledDoneMsg new = none ∨
       suffixAfterFirst isCancelledDoneMsg new = some [Msg.finished]) := by
  induction items generalizing st with
  | nil =>
    exact ⟨[Msg.finished], by simp [processQueueC, pushMsg], ⟨[], by simp, by simp⟩,
      .inl rfl⟩
  | cons it rest ih =>
    obtain ⟨key, ropt⟩ := it
    have hprops := itemEventsC_props w st key ropt
      (fun hro spec hlk => hres key (by rw [← hro]; simp) spec hlk)
    rcases hIE : itemEventsC w st key ropt with ⟨st1, brk⟩
    rw [hIE] at hprops
    obtain ⟨ms, hms, hfin, hfalse, htrue⟩ := hprops
    cases brk with
    | false =>
      obtain ⟨new2, hnew2, hpre2, hsuf2⟩ :=
        ih st1 (fun k hk spec hlk => hres k (by simp [hk]) spec hlk)
      simp only [processQueueC, hIE]
      refine ⟨ms ++ new2, by rw [hnew2, hms, List.append_assoc], ?_, ?_⟩
      · obtain ⟨pre2, hp2, hnf2⟩ := hpre2
        refine ⟨ms ++ pre2, by rw [hp2, List.append_assoc], ?_⟩
        intro hmem
        rcases List.mem_append.mp hmem with h | h
        · exact hfin h
        · exact hnf2 h
      · rw [suffixAfterFirst_append _ ms _ (hfalse rfl)]
        exact hsuf2
    | true =>
      obtain ⟨ms₀, res, hsplit, hnc, hcanc⟩ := htrue rfl
      simp only [processQueueC, hIE]
      refine ⟨ms ++ [Msg.finished], ?_, ⟨ms, rfl, hfin⟩, .inr ?_⟩
      · show st1.msgs ++ [Msg.finished] = _
        have hms2 : st1.msgs = st.msgs ++ ms := hms
        rw [hms2, List.append_assoc]
      · rw [hsplit, List.append_assoc]
        rw [suffixAfterFirst_append _ ms₀ _ hnc]
        simp [suffixAfterFirst, hcanc]

/-- C2: counterexample to the claim as stated.  The cancellation channel is
polled only inside `install_software` (before each setup step, per download
chunk, per piped output line) — the worker loop has no poll between queue
items.  On the schedule `[false, true]` the first item's single poll reads
`false`, so the user's signal is pending from immediately after the first
`Done` (K = 1 of N = 3); yet the second item — a package-manager item whose
install has no polling point — runs to a successful `Done`, and the third
item emits its `Progress` events before its first poll observes the signal.
The trace after the first `Done` therefore contains two further `Done`
messages and four further `Progress` events before `Finished`, refuting
"at most one more Done … followed by exactly one Finished, and no further
Progress events". -/
theorem cancellation_signal_observed_late :
    ((itemEventsC wEnvC wStC "a".data (some wResPM)).2 = false ∧
     (itemEventsC wEnvC wStC "a".data (some wResPM)).1.cancel = [true] ∧
     (itemEventsC wEnvC wStC "a".data (some wResPM)).1.msgs.countP
       (fun m => isDoneMsg m) = 1) ∧
    (((suffixAfterFirst isDoneMsg (processQueueC wEnvC wStC wQueueC).msgs).getD
        []).countP (fun m => isDoneMsg m) = 2 ∧
     ((suffixAfterFirst isDoneMsg (processQueueC wEnvC wStC wQueueC).msgs).getD
        []).countP (fun m => isProgressMsg m) = 4 ∧
     ((suffixAfterFirst isDoneMsg (processQueueC wEnvC wStC wQueueC).msgs).getD
        []).getLast? = some Msg.finished) := by
  decide

/-- C2 (amended): cancellation becomes effective only when a poll inside
`install_software` observes it.  Once observed — that is, once a `Done`
carrying a cancellation error appears — the worker emits nothing after that
`Done` except exactly one `Finished`: no further `Progress` and no further
`Done`.  Moreover every worker trace ends with exactly one `Finished`,
which occurs nowhere else.  Stated over the faithful model that threads the
shared cancellation schedule through the real installer embedding; the
hypothesis restricts resolver errors of the queued items to not themselves
contain `"cancelled"` (the loop would break on such a `Done` in neither the
source nor the model, but the `Done` would be cancellation-shaped). -/
theorem cancellation_terminal_trace_amended (w : WorkerEnv)
    (items : List (Str × Option ResolvedAsset)) (st : InstState)
    (hmsgs : st.msgs = [])
    (hres : ∀ k, (k, (none : Option ResolvedAsset)) ∈ items → ∀ spec,
      w.lookup k = some spec → ∀ fx e,
      resolve_asset w.ro w.env.sys_arch spec w.distro = (fx, .error e) →
      isCancelledErr ("Resolve failed: ".data ++ e) = false) :
    (∃ pre, (processQueueC w st items).msgs = pre ++ [Msg.finished] ∧
      Msg.finished ∉ pre) ∧
    (suffixAfterFirst isCancelledDoneMsg (processQueueC w st items).msgs = none ∨
     suffixAfterFirst isCancelledDoneMsg (processQueueC w st items).msgs
       = some [Msg.finished]) := by
  obtain ⟨new, hnew, ⟨pre, hpre, hnf⟩, hsuf⟩ := processQueueC_msgs w items st hres
  rw [hnew, hmsgs]
  constructor
  · exact ⟨pre, by rw [hpre]; simp, hnf⟩
  · simpa using hsuf

/-- Witness for the amended C2 at the concrete three-item cancelled run. -/
theorem cancellation_terminal_trace_amended_witness :
    (∃ pre, (processQueueC wEnvC wStC wQueueC).msgs = pre ++ [Msg.finished] ∧
      Msg.finished ∉ pre) ∧
    (suffixAfterFirst isCancelledDoneMsg (processQueueC wEnvC wStC wQueueC).msgs
       = none ∨
     suffixAfterFirst isCancelledDoneMsg (processQueueC wEnvC wStC wQueueC).msgs
       = some [Msg.finished]) :=
  cancellation_terminal_trace_amended wEnvC wQueueC wStC rfl
    (by intro k hk; simp [wQueueC] at hk)

/-- Counterexample to C4 as stated: the caller aggregation counts a `Done`
carrying a cancellation error in the `failed` counter exactly like any
other error (the claim says it is not counted). -/
theorem cancelled_done_increments_failed :
    (applyMsg wAgg0
      (.done "x".data (.error "Installation cancelled by user".data))).progress.failed = 1 := by
  decide

/-- C4 amended: the worker does suppress the remaining queue items after a
cancelled `Done` (no further `Done` is emitted), but the caller aggregation
does not distinguish cancellation: every errored `Done`, cancelled or not,
increments the `failed` counter. -/
theorem cancelled_done_counted_as_failed_amended :
    (∀ a k e, (applyMsg a (.done k (.error e))).progress.failed = a.progress.failed + 1) ∧
    (∀ d items,
      (∀ spec fx e, d.resolve spec = (fx, .error e) →
        isCancelledErr ("Resolve failed: ".data ++ e) = false) →
      (∀ k s b, ∀ m ∈ (d.install k s b).1, isDoneMsg m = false ∧ m ≠ .finished) →
      ((suffixAfterFirst isCancelledDoneMsg (processQueue d items).1).getD []).countP
          (fun m => isDoneMsg m) = 0) := by
  constructor
  · intro a k e
    rfl
  · intro d items hres hinst
    rcases processQueue_cancel_suffix d hres hinst items with h | h <;> rw [h] <;> rfl

/-- Witness for the amended C4. -/
theorem cancelled_done_counted_as_failed_amended_witness :
    ((applyMsg wAgg0 (.done "x".data (.error "boom".data))).progress.failed
        = wAgg0.progress.failed + 1) ∧
    (((suffixAfterFirst isCancelledDoneMsg
        (processQueue wDepsCancel [("k".data, none)]).1).getD []).countP
          (fun m => isDoneMsg m) = 0) :=
  ⟨cancelled_done_counted_as_failed_amended.1 wAgg0 "x".data "boom".data,
   cancelled_done_counted_as_failed_amended.2 wDepsCancel [("k".data, none)]
    (by intro spec fx e h; simp [wDepsCancel] at h)
    (by intro k s b m hm; simp [wDepsCancel] at hm)⟩

/- ===================== C7 ===================== -/

theorem isPrefixOf_append_self (l b : Str) : l.isPrefixOf (l ++ b) = true := by
  induction l with
  | nil => simp [List.isPrefixOf]
  | cons c cs ih => simp [List.isPrefixOf, ih]

theorem strContains_append_of_right (a b pat : Str) (h : strContains b pat = true) :
    strContains (a ++ b) pat = true := by
  induction a with
  | nil => exact h
  | cons c a' ih =>
    simp only [List.cons_append, strContains, strContainsAux, Bool.or_eq_true]
    right
    exact ih

theorem strContains_self_append (pat b : Str) : strContains (pat ++ b) pat = true := by
  cases hp : pat ++ b with
  | nil => simp_all [strContains, strContainsAux, List.append_eq_nil]
  | cons c rest =>
    simp only [strContains, strContainsAux, Bool.or_eq_true]
    left
    rw [← hp]
    exact isPrefixOf_append_self pat b

theorem strContains_appendBlock (line : Str) :
    strContains (pathHintAppendBlock line) line = true := by
  simp only [pathHintAppendBlock, List.append_assoc]
  apply strContains_append_of_right
  exact strContains_self_append line _

theorem execStep_pathHint_profile (ctx : InstallCtx) (st : InstState) (v : Str)
    (hdry : ctx.dry_run = false) :
    (execStep ctx st (.pathHint v)).1.profile =
      (if strContains st.profile
          (exportLineFor (ctx.env.shellVar.getD "/bin/bash".data)
            (replaceAll v "<install_root>".data
              (match ctx.spec.install_dir with
               | some dir => expand_tilde ctx.env.home dir
               | none => ctx.env.home)))
       then st.profile
       else st.profile ++ pathHintAppendBlock
          (exportLineFor (ctx.env.shellVar.getD "/bin/bash".data)
            (replaceAll v "<install_root>".data
              (match ctx.spec.install_dir with
               | some dir => expand_tilde ctx.env.home dir
               | none => ctx.env.home)))) := by
  simp only [execStep, hdry, Bool.false_eq_true, if_false]
  split
  · rfl
  · rfl

/-- C7: in the scenario (bash shell, home `/home/user`, install_dir
`~/tools/foo`, `PathHint "<install_root>/bin"`, not a dry run) the chosen
profile file is `~/.bashrc`, the export line is
`export PATH="$PATH:/home/user/tools/foo/bin"`, one execution starting from
an empty profile leaves exactly one occurrence of that line, and for every
starting profile a second execution of the same step leaves the profile
unchanged (idempotence). -/
theorem pathhint_idempotent :
    pathJoin wEnvB.home (profileNameFor (wEnvB.shellVar.getD "/bin/bash".data))
      = "/home/user/.bashrc".data ∧
    exportLineFor (wEnvB.shellVar.getD "/bin/bash".data)
      (replaceAll "<install_root>/bin".data "<install_root>".data
        (expand_tilde wEnvB.home "~/tools/foo".data)) = wExportLine ∧
    countInfix ((execStep wCtx7 wSt0 (.pathHint "<install_root>/bin".data)).1.profile)
      wExportLine = 1 ∧
    (∀ st : InstState,
      ((execStep wCtx7 ((execStep wCtx7 st (.pathHint "<install_root>/bin".data)).1)
        (.pathHint "<install_root>/bin".data)).1.profile)
        = ((execStep wCtx7 st (.pathHint "<install_root>/bin".data)).1.profile)) := by
  refine ⟨by decide, by decide, by decide, ?_⟩
  intro st
  rw [execStep_pathHint_profile wCtx7 _ _ rfl, execStep_pathHint_profile wCtx7 st _ rfl]
  generalize exportLineFor (wCtx7.env.shellVar.getD "/bin/bash".data)
      (replaceAll "<install_root>/bin".data "<install_root>".data
        (match wCtx7.spec.install_dir with
         | some dir => expand_tilde wCtx7.env.home dir
         | none => wCtx7.env.home)) = L
  by_cases h : strContains st.profile L = true
  · simp [h]
  · simp only [h, if_false, Bool.false_eq_true]
    rw [if_pos (strContains_append_of_right _ _ _ (strContains_appendBlock L))]

/- ===================== C8 ===================== -/

theorem ratiosOf_append (a b : List Msg) : ratiosOf (a ++ b) = ratiosOf a ++ ratiosOf b := by
  simp [ratiosOf, List.filterMap_append]

theorem chunkRatios_gt (T : Nat) (hT : 0 < T) (cs : List Nat) :
    ∀ d, (∀ c ∈ cs, 0 < c) → ∀ q ∈ chunkRatios d T cs, ((d : Nat) : ℚ) / (T : ℚ) < q := by
  have hTQ : (0 : ℚ) < (T : ℚ) := by exact_mod_cast hT
  induction cs with
  | nil => intro d hpos q hq; simp [chunkRatios] at hq
  | cons n rest ih =>
    intro d hpos q hq
    have hn : 0 < n := hpos n (by simp)
    have hstep : ((d : Nat) : ℚ) / (T : ℚ) < (((d + n : Nat) : ℚ)) / (T : ℚ) := by
      apply div_lt_div_of_pos_right _ hTQ
      exact_mod_cast Nat.lt_add_of_pos_right hn
    rcases List.mem_cons.mp hq with rfl | hq
    · exact hstep
    · exact hstep.trans (ih (d + n) (fun c hc => hpos c (by simp [hc])) q hq)

theorem chunkRatios_chain (T : Nat) (hT : 0 < T) (cs : List Nat) :
    ∀ d, (∀ c ∈ cs, 0 < c) → List.Chain' (· < ·) (chunkRatios d T cs) := by
  induction cs with
  | nil => intro d hpos; simp [chunkRatios]
  | cons n rest ih =>
    intro d hpos
    rw [chunkRatios]
    refine List.chain'_cons'.mpr ⟨?_, ih (d + n) (fun c hc => hpos c (by simp [hc]))⟩
    intro b hb
    exact chunkRatios_gt T hT rest (d + n) (fun c hc => hpos c (by simp [hc])) b
      (List.mem_of_mem_head? hb)

theorem chunkRatios_bounds (T : Nat) (hT : 0 < T) (cs : List Nat) :
    ∀ d, d + cs.sum = T → (∀ c ∈ cs, 0 < c) →
      ∀ q ∈ chunkRatios d T cs, 0 < q ∧ q ≤ 1 := by
  have hTQ : (0 : ℚ) < (T : ℚ) := by exact_mod_cast hT
  induction cs with
  | nil => intro d hsum hpos q hq; simp [chunkRatios] at hq
  | cons n rest ih =>
    intro d hsum hpos q hq
    have hn : 0 < n := hpos n (by simp)
    rcases List.mem_cons.mp hq with rfl | hq
    · constructor
      · apply div_pos _ hTQ
        exact_mod_cast Nat.lt_of_lt_of_le hn (Nat.le_add_left n d)
      · rw [div_le_one hTQ]
        have : d + n ≤ T := by simp at hsum; omega
        exact_mod_cast this
    · exact ih (d + n) (by simp at hsum; omega) (fun c hc => hpos c (by simp [hc])) q hq

theorem chunkRatios_getLast (T : Nat) (hT : 0 < T) (cs : List Nat) :
    ∀ d, d + cs.sum = T → cs ≠ [] → (chunkRatios d T cs).getLast? = some 1 := by
  induction cs with
  | nil => intro d hsum hne; exact absurd rfl hne
  | cons n rest ih =>
    intro d hsum hne
    cases rest with
    | nil =>
      have hd : d + n = T := by simp at hsum; omega
      have hTQ : (T : ℚ) ≠ 0 := by
        exact_mod_cast Nat.pos_iff_ne_zero.mp hT
      simp [chunkRatios, hd, div_self hTQ]
    | cons m rest' =>
      rw [chunkRatios, chunkRatios, List.getLast?_cons_cons, ← chunkRatios]
      exact ih (d + n) (by simp at hsum ⊢; omega) (by simp)

theorem downloadChunkLoop_ok (T : Nat) (dest : Str) (cs : List Nat) :
    ∀ (st : InstState) (d : Nat), st.cancel = [] →
    ∃ st', downloadChunkLoop (some T) dest st d cs = (st', .ok ()) ∧
      st'.cancel = [] ∧
      ratiosOf st'.msgs = ratiosOf st.msgs ++ chunkRatios d T cs := by
  induction cs with
  | nil =>
    intro st d h
    refine ⟨st, ?_, h, by simp [chunkRatios]⟩
    simp [downloadChunkLoop, pollCancel, h]
  | cons n rest ih =>
    intro st d h
    simp only [downloadChunkLoop, pollCancel, h]
    obtain ⟨st', hrun, hc', hr'⟩ :=
      ih (pushMsg (pushMsg (pushFx st (.fsWrite dest))
            (.subProgress (((d + n : Nat) : ℚ) / (T : ℚ))))
          (.progress [] downloadingText none)) (d + n)
        (by simp [pushMsg, pushFx, h])
    refine ⟨st', hrun, hc', ?_⟩
    rw [hr']
    simp [pushMsg, pushFx, ratiosOf_append, chunkRatios]
    simp [ratiosOf]

/-- C8: when the fetched body completes with known content length `T`
reached exactly (each read chunk non-empty, chunk sizes summing to `T`) and
no cancellation arrives, `download_to_file` succeeds and its emitted
`SubProgress` ratios are strictly increasing, all in `(0, 1]`, and end at
exactly `1`.  Ratios are modelled as exact rationals in place of `f64`. -/
theorem download_subprogress_ratios (o : InstallOracle) (st : InstState) (url dest : Str)
    (T : Nat)
    (hfetch : o.fetch url = .ok ())
    (hlen : o.contentLength url = some T)
    (hT : 0 < T)
    (hchunks : ∀ c ∈ o.chunks url, 0 < c)
    (hsum : (o.chunks url).sum = T)
    (hcancel : st.cancel = [])
    (hmsgs : st.msgs = []) :
    (download_to_file o st url dest).2 = .ok () ∧
    List.Chain' (· < ·) (ratiosOf (download_to_file o st url dest).1.msgs) ∧
    (∀ q ∈ ratiosOf (download_to_file o st url dest).1.msgs, 0 < q ∧ q ≤ 1) ∧
    (ratiosOf (download_to_file o st url dest).1.msgs).getLast? = some 1 := by
  have hne : o.chunks url ≠ [] := by
    intro hnil
    rw [hnil] at hsum
    simp at hsum
    omega
  obtain ⟨st', hrun, hc', hr'⟩ := downloadChunkLoop_ok T dest (o.chunks url)
    (pushFx st (.fsWrite dest)) 0 (by simp [pushFx, hcancel])
  have heq : download_to_file o st url dest = (st', .ok ()) := by
    simp only [download_to_file, hfetch, hlen]
    exact hrun
  have h1 : (download_to_file o st url dest).1 = st' := by rw [heq]
  have h2 : (download_to_file o st url dest).2 = Except.ok () := by rw [heq]
  have hro : ratiosOf st'.msgs = chunkRatios 0 T (o.chunks url) := by
    rw [hr']
    simp [pushFx, hmsgs, ratiosOf]
  rw [h1, h2, hro]
  refine ⟨rfl, ?_, ?_, ?_⟩
  · exact chunkRatios_chain T hT _ 0 hchunks
  · exact chunkRatios_bounds T hT _ 0 (by simpa using hsum) hchunks
  · exact chunkRatios_getLast T hT _ 0 (by simpa using hsum) hne

/-- Witness for C8: a 10-byte body in two 5-byte chunks. -/
theorem download_subprogress_ratios_witness :
    (download_to_file wOracleDl wSt0 "u".data "d".data).2 = .ok () ∧
    List.Chain' (· < ·) (ratiosOf (download_to_file wOracleDl wSt0 "u".data "d".data).1.msgs) ∧
    (∀ q ∈ ratiosOf (download_to_file wOracleDl wSt0 "u".data "d".data).1.msgs,
      0 < q ∧ q ≤ 1) ∧
    (ratiosOf (download_to_file wOracleDl wSt0 "u".data "d".data).1.msgs).getLast? = some 1 :=
  download_subprogress_ratios wOracleDl wSt0 "u".data "d".data 10 rfl rfl (by decide)
    (by decide) rfl rfl rfl

/- ===================== C3 ===================== -/

theorem pollCancel_fx (st : InstState) : (pollCancel st).2.fx = st.fx := by
  cases h : st.cancel <;> simp [pollCancel, h]

theorem execStep_dry (ctx : InstallCtx) (st : InstState) (s : SetupStep)
    (hdry : ctx.dry_run = true) :
    (execStep ctx st s).1.fx = st.fx ∧ (execStep ctx st s).2 = .ok () := by
  cases s with
  | package packages =>
    simp only [execStep, hdry]
    split
    · simp [pipeLog]
    · simp [pushLogOnly]
  | pathHint value =>
    simp only [execStep, hdry]
    simp [pipeLog]
  | note value =>
    simp [execStep, pushLogOnly]
  | shell command =>
    simp only [execStep, hdry]
    simp [pipeLog]

theorem runSteps_dry_fx (ctx : InstallCtx) (steps : List SetupStep)
    (hdry : ctx.dry_run = true) :
    ∀ st : InstState, (runSteps ctx st steps).1.fx = st.fx := by
  induction steps with
  | nil => intro st; rfl
  | cons step rest ih =>
    intro st
    cases hcl : st.cancel with
    | nil =>
      simp only [runSteps, pollCancel, hcl]
      rcases he : execStep ctx st step with ⟨st2, r⟩
      have hfx2 : st2.fx = st.fx := by
        rw [← (execStep_dry ctx st step hdry).1, he]
      have hok : r = .ok () := by
        rw [← (execStep_dry ctx st step hdry).2, he]
      subst hok
      simp only [he]
      rw [ih st2, hfx2]
    | cons b tail =>
      simp only [runSteps, pollCancel, hcl]
      cases b
      · rcases he : execStep ctx { st with cancel := tail } step with ⟨st2, r⟩
        have hfx2 : st2.fx = st.fx := by
          rw [← (execStep_dry ctx { st with cancel := tail } step hdry).1, he]
        have hok : r = .ok () := by
          rw [← (execStep_dry ctx { st with cancel := tail } step hdry).2, he]
        subst hok
        simp only [he]
        rw [ih st2, hfx2]
      · rfl

theorem extract_archive_dry (ctx : InstallCtx) (st : InstState) (p ir : Str)
    (hdry : ctx.dry_run = true) :
    (extract_archive ctx st p ir).1 = st := by
  simp [extract_archive, hdry]

theorem handle_vscode_install_dry (ctx : InstallCtx) (st : InstState) (p : Str)
    (hdry : ctx.dry_run = true) :
    (handle_vscode_install ctx st p).1 = st := by
  simp only [handle_vscode_install]
  split
  · simp [hdry]
  · rfl

theorem install_software_dry_fx (ctx : InstallCtx) (name : Str) (resolved : ResolvedAsset)
    (st : InstState) (hdry : ctx.dry_run = true) :
    (install_software ctx name resolved st).1.fx = st.fx := by
  simp only [install_software, hdry, Bool.not_true, Bool.false_eq_true, if_false]
  rcases hr : runSteps ctx
      (pipeLog (pipeLog st ("== ".data ++ name ++ " (".data ++ ctx.spec.display_name
        ++ ") ==".data)) ("resolved version: ".data ++ resolved.version))
      ctx.spec.setup_steps with ⟨st3, res⟩
  have hfx3 : st3.fx = st.fx := by
    have hrs := runSteps_dry_fx ctx ctx.spec.setup_steps hdry
      (pipeLog (pipeLog st ("== ".data ++ name ++ " (".data ++ ctx.spec.display_name
        ++ ") ==".data)) ("resolved version: ".data ++ resolved.version))
    rw [hr] at hrs
    simpa [pipeLog] using hrs
  cases res with
  | error e =>
    simp only [hr]
    exact hfx3
  | ok u =>
    simp only [hr]
    split
    · simp only [hdry, if_true]
      have hstate : ∀ (c : Bool) (p ir : Str) (st4 : InstState),
          (if c = true then handle_vscode_install ctx st4 p
           else extract_archive ctx st4 p ir).1 = st4 := by
        intro c p ir st4
        cases c
        · simpa using extract_archive_dry ctx st4 p ir hdry
        · simpa using handle_vscode_install_dry ctx st4 p hdry
      split
      · next stx ex heq =>
        have hs := congrArg Prod.fst heq
        rw [hstate] at hs
        have hs2 : _ = stx := hs
        rw [← hs2]
        simp [pipeLog, hfx3]
      · next stx resx heq =>
        have hs := congrArg Prod.fst heq
        rw [hstate] at hs
        have hs2 : _ = stx := hs
        rw [← hs2]
        simp [pipeLog, hfx3]
    · simp [pushLogOnly, hfx3]

theorem resolve_asset_effects (o : ResolverOracle) (sys_arch : Str) (spec : SoftwareSpec)
    (distro : DistroInfo) :
    ∀ e ∈ (resolve_asset o sys_arch spec distro).1,
      (∀ p, e ≠ .fsWrite p) ∧ (∀ p, e ≠ .ensureDir p) ∧
      (spec.source ≠ .packageManager → ∀ c, e ≠ .spawn c) := by
  intro e he
  rcases hsrc : spec.source with ⟨id, url, vre, dre⟩ | _ | ⟨repo, pat⟩
  · simp only [resolve_asset, hsrc] at he
    split at he
    · simp only [resolve_flutter] at he
      rw [List.mem_singleton] at he
      subst he
      exact ⟨by simp, by simp, fun _ c => by simp⟩
    · split at he
      · simp only [resolve_android_studio] at he
        rw [List.mem_singleton] at he
        subst he
        exact ⟨by simp, by simp, fun _ c => by simp⟩
      · split at he
        · simp only [resolve_vscode] at he
          rw [List.mem_singleton] at he
          subst he
          exact ⟨by simp, by simp, fun _ c => by simp⟩
        · split at he
          · simp only [resolve_generic_scraper] at he
            rw [List.mem_singleton] at he
            subst he
            exact ⟨by simp, by simp, fun _ c => by simp⟩
          · simp at he
          · simp at he
  · simp only [resolve_asset, hsrc] at he
    refine ⟨?_, ?_, fun hne => absurd rfl hne⟩ <;>
    · simp only [resolve_package_only, get_package_version] at he
      cases hq : pkgQuerySpawnCmd distro.pkg_manager (firstPackageName spec) with
      | none => rw [hq] at he; simp at he
      | some cmd =>
        rw [hq] at he
        replace he : e ∈ [Effect.spawn cmd] := he
        rw [List.mem_singleton] at he
        subst he
        simp
  · simp only [resolve_asset, hsrc] at he
    cases repo with
    | none => simp [resolve_github] at he
    | some rp =>
      simp only [resolve_github] at he
      rw [List.mem_singleton] at he
      subst he
      exact ⟨by simp, by simp, fun _ c => by simp⟩

/-- Counterexample to C3 as stated: a dry run over a not-yet-resolved
`PackageManager` item still spawns the package-manager version-query
sub-process (`apt-cache policy foo`) during resolution (`wDepsDry` wires
the real resolver and a dry-run installer into the worker loop). -/
theorem dry_run_resolution_spawns_subprocess :
    Effect.spawn ("apt-cache policy foo".data)
      ∈ (processQueue wDepsDry [("k".data, none)]).2 := by
  decide

/-- C3 amended: a dry-run `install_software` call performs no effect at all
(no filesystem write, no directory creation, no sub-process, no download),
and resolution never writes to the filesystem; however resolution of a
`PackageManager`-source item may spawn a version-query sub-process — for
any other source it spawns nothing. -/
theorem dry_run_no_fswrite_no_spawn_amended :
    (∀ (ctx : InstallCtx) (name : Str) (resolved : ResolvedAsset) (st : InstState),
      ctx.dry_run = true → (install_software ctx name resolved st).1.fx = st.fx) ∧
    (∀ (o : ResolverOracle) (sys_arch : Str) (spec : SoftwareSpec) (distro : DistroInfo),
      ∀ e ∈ (resolve_asset o sys_arch spec distro).1,
        (∀ p, e ≠ .fsWrite p) ∧ (∀ p, e ≠ .ensureDir p) ∧
        (spec.source ≠ .packageManager → ∀ c, e ≠ .spawn c)) :=
  ⟨fun ctx name resolved st hdry => install_software_dry_fx ctx name resolved st hdry,
   fun o sys_arch spec distro => resolve_asset_effects o sys_arch spec distro⟩

/-- Witness for the amended C3. -/
theorem dry_run_no_fswrite_no_spawn_amended_witness :
    (install_software wCtxPMdry "k".data
        { version := "1".data, url := "u".data, file_name := "f".data } wSt0).1.fx
      = wSt0.fx ∧
    ((∀ p, Effect.netGet "https://api.github.com/repos/foo/bar/releases/latest".data
        ≠ .fsWrite p) ∧
     (∀ p, Effect.netGet "https://api.github.com/repos/foo/bar/releases/latest".data
        ≠ .ensureDir p) ∧
     (wSpecGh.source ≠ .packageManager →
      ∀ c, Effect.netGet "https://api.github.com/repos/foo/bar/releases/latest".data
        ≠ .spawn c)) :=
  ⟨dry_run_no_fswrite_no_spawn_amended.1 wCtxPMdry "k".data
    { version := "1".data, url := "u".data, file_name := "f".data } wSt0 rfl,
   dry_run_no_fswrite_no_spawn_amended.2 wOracleG "x86_64".data wSpecGh wDistroApt
    (Effect.netGet "https://api.github.com/repos/foo/bar/releases/latest".data) (by decide)⟩
theorem rSendMsg_logs (ctx : RestoreCtx) (st : RestState) (m : Msg) :
    (rSendMsg ctx st m).logs = st.logs := by
  cases h : ctx.hasTx <;> simp [rSendMsg, h]

theorem rSendMsg_count (ctx : RestoreCtx) (st : RestState) (m : Msg) :
    (rSendMsg ctx st m).restored_count = st.restored_count := by
  cases h : ctx.hasTx <;> simp [rSendMsg, h]

theorem rSendLog_logs (ctx : RestoreCtx) (st : RestState) (l : Str) :
    (rSendLog ctx st l).logs = st.logs ++ [l] := by
  cases h : ctx.hasTx <;> simp [rSendLog, h]

theorem rSendLog_count (ctx : RestoreCtx) (st : RestState) (l : Str) :
    (rSendLog ctx st l).restored_count = st.restored_count := by
  cases h : ctx.hasTx <;> simp [rSendLog, h]

theorem processEntry_skip (ctx : RestoreCtx) (zn : Str) (st : RestState) (u : ZipEntry)
    (h : enclosed_name u.name = none) : processEntry ctx zn st u = st := by
  simp [processEntry, h]

theorem processEntry_logs (ctx : RestoreCtx) (zn : Str) (st : RestState) (e : ZipEntry) :
    (processEntry ctx zn st e).logs = st.logs ∨
    (processEntry ctx zn st e).logs = st.logs ++ [warnLine e.name] := by
  simp only [processEntry]
  split
  · left; rfl
  · split
    · left; rfl
    · rw [rSendMsg_logs, rSendMsg_logs]
      split
      · split
        · split
          · right; rw [rSendLog_logs]
          · left; rfl
        · left; rfl
      · left; rfl

theorem processEntry_logs_grow (ctx : RestoreCtx) (zn : Str) (st : RestState)
    (e : ZipEntry) : st.logs <+: (processEntry ctx zn st e).logs := by
  rcases processEntry_logs ctx zn st e with h | h <;> rw [h]
  exact ⟨[warnLine e.name], rfl⟩

theorem processEntry_count_file (ctx : RestoreCtx) (zn : Str) (st : RestState) (e : ZipEntry)
    (hsafe : (enclosed_name e.name).isSome = true)
    (hnotdir : strEndsWith e.name "/".data = false) :
    (processEntry ctx zn st e).restored_count = st.restored_count + 1 := by
  obtain ⟨pth, hpth⟩ := Option.isSome_iff_exists.mp hsafe
  simp only [processEntry, hpth, hnotdir, Bool.false_eq_true, if_false]
  rw [rSendMsg_count, rSendMsg_count]
  split
  · split
    · split
      · rw [rSendLog_count]
      · rfl
    · rfl
  · rfl

theorem processEntry_warn (ctx : RestoreCtx) (zn : Str) (st : RestState) (e : ZipEntry)
    (index : List BackupIndexEntry) (ie : BackupIndexEntry)
    (hidx : ctx.index = some index)
    (hsafe : (enclosed_name e.name).isSome = true)
    (hnotdir : strEndsWith e.name "/".data = false)
    (hfound : index.find? (fun x : BackupIndexEntry => x.relative_path == e.name) = some ie)
    (hmismatch : ctx.hash e.content ≠ ie.sha256_hash) :
    (processEntry ctx zn st e).logs = st.logs ++ [warnLine e.name] := by
  obtain ⟨pth, hpth⟩ := Option.isSome_iff_exists.mp hsafe
  simp only [processEntry, hpth, hnotdir, Bool.false_eq_true, if_false, hidx, hfound]
  rw [rSendMsg_logs, rSendMsg_logs]
  rw [if_pos hmismatch]
  rw [rSendLog_logs]

theorem processArchive_logs_grow (ctx : RestoreCtx) (zn : Str) (entries : List ZipEntry) :
    ∀ st, st.logs <+: (processArchive ctx zn st entries).logs := by
  induction entries with
  | nil => intro st; exact List.prefix_refl _
  | cons a rest ih =>
    intro st
    exact (processEntry_logs_grow ctx zn st a).trans (ih (processEntry ctx zn st a))

theorem processArchive_warn_mem (ctx : RestoreCtx) (zn : Str) (entries : List ZipEntry)
    (e : ZipEntry) (index : List BackupIndexEntry) (ie : BackupIndexEntry)
    (hidx : ctx.index = some index)
    (hsafe : (enclosed_name e.name).isSome = true)
    (hnotdir : strEndsWith e.name "/".data = false)
    (hfound : index.find? (fun x : BackupIndexEntry => x.relative_path == e.name) = some ie)
    (hmismatch : ctx.hash e.content ≠ ie.sha256_hash)
    (he : e ∈ entries) :
    ∀ st, warnLine e.name ∈ (processArchive ctx zn st entries).logs := by
  induction entries with
  | nil => simp at he
  | cons a rest ih =>
    intro st
    rcases List.mem_cons.mp he with rfl | he2
    · have hw := processEntry_warn ctx zn st e index ie hidx hsafe hnotdir hfound hmismatch
      have hpre := processArchive_logs_grow ctx zn rest (processEntry ctx zn st e)
      apply hpre.subset
      rw [hw]
      simp
    · exact ih he2 (processEntry ctx zn st a)

theorem restoreArchives_ok (ctx : RestoreCtx) (o : RestoreOracle) (bd : Str) (ta : Nat)
    (zips : List Str) :
    ∀ i st, (∀ z ∈ zips, ∀ err, o.zipFs (pathJoin bd z) ≠ some (.error err)) →
    ∃ st', restoreArchives ctx o bd ta i zips st = (st', .ok ()) ∧ st.logs <+: st'.logs := by
  induction zips with
  | nil => intro i st _; exact ⟨st, rfl, List.prefix_refl _⟩
  | cons z zt ih =>
    intro i st h
    cases hz : o.zipFs (pathJoin bd z) with
    | none =>
      simp only [restoreArchives, hz]
      obtain ⟨st', hrun, hpre⟩ := ih (i + 1) _ (fun z2 hz2 err => h z2 (by simp [hz2]) err)
      refine ⟨st', hrun, List.IsPrefix.trans ?_ hpre⟩
      rw [rSendLog_logs]
      exact List.prefix_append _ _
    | some opened =>
      cases opened with
      | error e => exact absurd hz (h z (by simp) e)
      | ok entries =>
        simp only [restoreArchives, hz]
        obtain ⟨st', hrun, hpre⟩ := ih (i + 1) _ (fun z2 hz2 err => h z2 (by simp [hz2]) err)
        refine ⟨st', hrun, List.IsPrefix.trans ?_ hpre⟩
        rw [rSendLog_logs]
        refine List.IsPrefix.trans ?_ (List.prefix_append _ _)
        refine List.IsPrefix.trans ?_ (processArchive_logs_grow ctx z _ _)
        rw [rSendMsg_logs, rSendMsg_logs]

theorem restoreArchives_warn (ctx : RestoreCtx) (o : RestoreOracle) (bd : Str) (ta : Nat)
    (z : Str) (entries : List ZipEntry) (e : ZipEntry)
    (index : List BackupIndexEntry) (ie : BackupIndexEntry)
    (hidx : ctx.index = some index)
    (hsafe : (enclosed_name e.name).isSome = true)
    (hnotdir : strEndsWith e.name "/".data = false)
    (hfound : index.find? (fun x : BackupIndexEntry => x.relative_path == e.name) = some ie)
    (hmismatch : ctx.hash e.content ≠ ie.sha256_hash)
    (hzfs : o.zipFs (pathJoin bd z) = some (.ok entries))
    (he : e ∈ entries)
    (zips : List Str) :
    ∀ i st, z ∈ zips →
    (∀ z2 ∈ zips, ∀ err, o.zipFs (pathJoin bd z2) ≠ some (.error err)) →
    ∃ st', restoreArchives ctx o bd ta i zips st = (st', .ok ()) ∧
      warnLine e.name ∈ st'.logs := by
  induction zips with
  | nil => intro i st hmem _; simp at hmem
  | cons zh zt ih =>
    intro i st hmem h
    rcases List.mem_cons.mp hmem with rfl | hmem2
    · simp only [restoreArchives, hzfs]
      obtain ⟨st', hrun, hpre⟩ := restoreArchives_ok ctx o bd ta zt (i + 1) _
        (fun z2 hz2 err => h z2 (by simp [hz2]) err)
      refine ⟨st', hrun, ?_⟩
      apply hpre.subset
      rw [rSendLog_logs]
      apply List.mem_append_left
      have hwm := processArchive_warn_mem ctx z entries e index ie hidx hsafe hnotdir
        hfound hmismatch he
      exact hwm _
    · cases hz : o.zipFs (pathJoin bd zh) with
      | none =>
        simp only [restoreArchives, hz]
        exact ih (i + 1) _ hmem2 (fun z2 hz2 err => h z2 (by simp [hz2]) err)
      | some opened =>
        cases opened with
        | error er => exact absurd hz (h zh (by simp) er)
        | ok ents =>
          simp only [restoreArchives, hz]
          exact ih (i + 1) _ hmem2 (fun z2 hz2 err => h z2 (by simp [hz2]) err)

theorem restoreFinish_warn (ctx : RestoreCtx) (o : RestoreOracle) (bd : Str)
    (zips : List Str) (st : RestState)
    (z : Str) (entries : List ZipEntry) (e : ZipEntry)
    (index : List BackupIndexEntry) (ie : BackupIndexEntry)
    (hidx : ctx.index = some index)
    (hsafe : (enclosed_name e.name).isSome = true)
    (hnotdir : strEndsWith e.name "/".data = false)
    (hfound : index.find? (fun x : BackupIndexEntry => x.relative_path == e.name) = some ie)
    (hmismatch : ctx.hash e.content ≠ ie.sha256_hash)
    (hzfs : o.zipFs (pathJoin bd z) = some (.ok entries))
    (he : e ∈ entries)
    (hmem : z ∈ zips)
    (hnofail : ∀ z2 ∈ zips, ∀ err, o.zipFs (pathJoin bd z2) ≠ some (.error err)) :
    ∃ logs, (restoreFinish ctx o bd zips st).2 = .ok logs ∧ warnLine e.name ∈ logs := by
  obtain ⟨st', hrun, hwarn⟩ := restoreArchives_warn ctx o bd zips.length z entries e index ie
    hidx hsafe hnotdir hfound hmismatch hzfs he zips 0 st hmem hnofail
  simp only [restoreFinish, hrun]
  refine ⟨_, rfl, ?_⟩
  rw [rSendMsg_logs, rSendMsg_logs]
  exact List.mem_append_left _ hwarn

/-- C9: when the manifest index records, for an extracted file, a SHA-256 hash that
differs from the hash of the bytes actually written, restore_backup logs an integrity
warning for that file (warnLine appears in the returned logs), still counts the file
as restored (processEntry increments restored_count), and still returns Ok for the
whole run. -/
theorem restore_hash_mismatch_warns_but_succeeds
    (o : RestoreOracle) (backup_dir : Str) (hasTx : Bool) (info : BackupInfo)
    (index : List BackupIndexEntry) (z : Str) (entries : List ZipEntry) (e : ZipEntry)
    (ie : BackupIndexEntry)
    (hinfo : o.infoFile = some (.ok info))
    (hidx : info.index = some index)
    (hz : z ∈ info.zip_files)
    (hnofail : ∀ z2 ∈ info.zip_files, ∀ err,
      o.zipFs (pathJoin backup_dir z2) ≠ some (.error err))
    (hzfs : o.zipFs (pathJoin backup_dir z) = some (.ok entries))
    (he : e ∈ entries)
    (hsafe : (enclosed_name e.name).isSome = true)
    (hnotdir : strEndsWith e.name "/".data = false)
    (hfound : index.find? (fun x : BackupIndexEntry => x.relative_path == e.name) = some ie)
    (hmismatch : o.hash e.content ≠ ie.sha256_hash) :
    (∃ logs, (restore_backup o backup_dir hasTx).2 = .ok logs ∧ warnLine e.name ∈ logs) ∧
    (∀ (ctx : RestoreCtx) (zn : Str) (st : RestState),
      (processEntry ctx zn st e).restored_count = st.restored_count + 1) := by
  constructor
  · have hne : info.zip_files.isEmpty = false := by
      cases hzf : info.zip_files with
      | nil => rw [hzf] at hz; simp at hz
      | cons a b => simp
    simp only [restore_backup, hinfo, hne, Bool.false_eq_true, if_false]
    exact restoreFinish_warn _ o backup_dir _ _ z entries e index ie hidx hsafe hnotdir
      hfound hmismatch hzfs he hz hnofail
  · intro ctx zn st
    exact processEntry_count_file ctx zn st e hsafe hnotdir

theorem restore_hash_mismatch_warns_but_succeeds_witness :
    (∃ logs, (restore_backup wOracleRestore "/bk".data true).2 = .ok logs ∧
      warnLine "good.txt".data ∈ logs) ∧
    (∀ (ctx : RestoreCtx) (zn : Str) (st : RestState),
      (processEntry ctx zn st { name := "good.txt".data, content := [2] }).restored_count
        = st.restored_count + 1) :=
  restore_hash_mismatch_warns_but_succeeds wOracleRestore "/bk".data true wInfo wIndex
    "a.zip".data wEntries { name := "good.txt".data, content := [2] }
    { relative_path := "good.txt".data, original_size := 1, sha256_hash := "x".data,
      zip_file := none }
    rfl rfl (by decide)
    (by
      intro z2 hz2 err hcontra
      have hzf : wInfo.zip_files = ["a.zip".data] := rfl
      rw [hzf, List.mem_singleton] at hz2
      subst hz2
      have hval : wOracleRestore.zipFs (pathJoin "/bk".data "a.zip".data)
          = some (.ok wEntries) := by decide
      rw [hval] at hcontra
      simp at hcontra)
    (by decide) (by decide) (by decide) (by decide) (by decide) (by decide)

/-- C10: a zip entry whose stored name is rejected by enclosed_name (absolute path or
a '..' component) is silently skipped: processEntry returns the state unchanged, so
nothing is written, no log line mentions it, and it is not counted as restored; yet
the pre-scanned total used for the progress ratio still counts it. Shown both in
general (first conjunct) and on a concrete run with entries "../evil" and "good.txt":
the total is 2, only 1 file is restored, no log mentions "../evil", and the only
filesystem effects are for "good.txt". -/
theorem unsafe_zip_entry_silently_skipped :
    (∀ (ctx : RestoreCtx) (zn : Str) (st : RestState) (u : ZipEntry),
      enclosed_name u.name = none → processEntry ctx zn st u = st) ∧
    totalFileCount wOracleRestore.zipFs
      ((wInfo.zip_files).map (fun z => pathJoin "/bk".data z)) = 2 ∧
    (restore_backup wOracleRestore "/bk".data true).1.restored_count = 1 ∧
    (restore_backup wOracleRestore "/bk".data true).1.logs.all
      (fun l => !(strContains l "../evil".data)) = true ∧
    (restore_backup wOracleRestore "/bk".data true).1.fx
      = [Effect.ensureDir (parentDir (pathJoin "/dst".data "good.txt".data)),
         Effect.fsWrite (pathJoin "/dst".data "good.txt".data)] := by
  refine ⟨fun ctx zn st u h => processEntry_skip ctx zn st u h,
    by decide, by decide, by decide, by decide⟩

theorem unsafe_zip_entry_silently_skipped_witness :
    processEntry { hash := fun _ => "h".data, hasTx := true, dest_dir := "/dst".data,
                   index := some wIndex, total_files := 2 } "a.zip".data
      { logs := [], msgs := [], fx := [], restored_count := 0 }
      { name := "../evil".data, content := [1] }
      = { logs := [], msgs := [], fx := [], restored_count := 0 } :=
  unsafe_zip_entry_silently_skipped.1 _ _ _ _ (by decide)
